import Mathlib

/-!
# drspin: a verification development

A shallow embedding of the sampling profiler `drspin` (`src/drspin.cpp`,
`src/freebsd-symbolicator.cpp`) together with theorems about its
symbolicator, its frame-pointer stack walker, its call tree, the scan of the
auxiliary vector and the construction of libraries.

Conventions of the embedding:

* `uintptr_t` and `size_t` are natural numbers below `WORD = 2 ^ 64`; sums and
  differences of such values are reduced modulo `WORD` (`wadd`, `wsub`).
* `unsigned int` counters are reduced modulo `UINT = 2 ^ 32`.
* `std::vector<T>` is `List T`; an iterator into a vector is an index.
* `std::string` is `String`.
* `std::sort` is taken by what it promises (`StdSort`, `StdSortOf`); where the
  order it leaves among equal elements matters, it is the implementation of GNU
  libstdc++ (`Gnu.sort`).
-/

namespace Drspin

/-! ## Machine words -/

/-- Number of values of a `uintptr_t` / `size_t` (both 64 bits wide on the
supported targets x86-64 and aarch64). -/
def WORD : Nat := 2 ^ 64

/-- Number of values of an `unsigned int`. -/
def UINT : Nat := 2 ^ 32

/-- Unsigned 64-bit addition. -/
def wadd (a b : Nat) : Nat := (a + b) % WORD

/-- Unsigned 64-bit subtraction. -/
def wsub (a b : Nat) : Nat := (a % WORD + (WORD - b % WORD)) % WORD

/-! ## `std::upper_bound` -/

/-- The loop of `std::upper_bound(first, last, value, comp)` over a vector:
`first` is the index of the start of the remaining range, `len` its length,
and `gt x` stands for `comp(value, x)`.  Every iteration halves `len`, so
`fuel = len` iterations are enough. -/
def upperBoundLoop {α : Type} (xs : List α) (gt : α → Bool) : Nat → Nat → Nat → Nat
  | 0, first, _ => first
  | fuel + 1, first, len =>
    if len = 0 then first
    else
      let half := len / 2
      let mid := first + half
      match xs[mid]? with
      | none => first
      | some x =>
        if gt x then upperBoundLoop xs gt fuel first half
        else upperBoundLoop xs gt fuel (mid + 1) (len - half - 1)

/-- Embedding of `std::upper_bound(xs.begin(), xs.end(), value, comp)`: the
index of the returned iterator (`xs.length` for `end()`). -/
def upper_bound {α : Type} (xs : List α) (gt : α → Bool) : Nat :=
  upperBoundLoop xs gt xs.length 0 xs.length

/-! ## `basename(3)` -/

/-- Drops the trailing `/` characters of a reversed path. -/
def dropSlashes : List Char → List Char
  | [] => []
  | c :: cs => if c = '/' then dropSlashes cs else c :: cs

/-- Takes the characters of a reversed path up to the first `/`. -/
def takeComponent : List Char → List Char
  | [] => []
  | c :: cs => if c = '/' then [] else c :: takeComponent cs

/-- Embedding of the C library function `basename(3)`: the last component
of the path with trailing slashes removed; `"."` for the empty path and `"/"`
for a path made of slashes only. -/
def basename (path : String) : String :=
  if path.data = [] then "."
  else
    match dropSlashes path.data.reverse with
    | [] => "/"
    | cs => String.mk (takeComponent cs).reverse

/-! ## Symbols and libraries (`freebsd-symbolicator.h`) -/

/-- Embedding of `struct Symbol`: `address` is the unslid address from the ELF
symbol table. -/
structure Symbol where
  name : String
  address : Nat
  size : Nat
deriving DecidableEq, Repr

/-- Embedding of `struct Library`. -/
structure Library where
  path : String
  load_address : Nat
  base_address : Nat
  symbols : List Symbol
deriving DecidableEq, Repr

/-- Embedding of `Library::name`. -/
def Library.name (l : Library) : String := basename l.path

/-- Embedding of `Library::symbolicate` (`freebsd-symbolicator.cpp`, lines 249-270). -/
def Library.symbolicate (l : Library) (address : Nat) : String :=
  let iter := upper_bound l.symbols (fun symbol => decide (address < symbol.address))
  let base_string :=
    if iter ≠ 0 then
      match l.symbols[iter - 1]? with
      | none => "???"
      | some symbol =>
        let offset := wsub address symbol.address
        if offset < symbol.size then symbol.name ++ " + " ++ toString offset
        else "???"
    else "???"
  base_string ++ " (in " ++ l.name ++ ")"

/-- Embedding of `FreeBSDSymbolicator::symbolicate`
(`freebsd-symbolicator.cpp`, lines 295-312); `libraries` is the `_libraries`
member. -/
def FreeBSDSymbolicator.symbolicate (libraries : List Library) (address : Nat) : String :=
  if address = 0 then "..."
  else
    let iter := upper_bound libraries (fun library => decide (address < library.load_address))
    if iter ≠ 0 then
      match libraries[iter - 1]? with
      | none => "???"
      | some library =>
        library.symbolicate (wsub (wadd library.base_address address) library.load_address)
    else "???"

/-- The library of scenario S3/S4. -/
def libL1 : Library :=
  { path := "/usr/lib/libL1", load_address := 0x400000, base_address := 0x1000,
    symbols := [⟨"foo", 0x1100, 0x40⟩, ⟨"bar", 0x1200, 0x10⟩] }

/-- A library with two symbols at the same address (aliases). -/
def libAlias : Library :=
  { path := "/usr/lib/libL1", load_address := 0x400000, base_address := 0x1000,
    symbols := [⟨"foo", 0x1100, 0x40⟩, ⟨"bar", 0x1100, 0x40⟩] }

/-- A second library whose load address lies inside the extent of `foo` in `libL1`. -/
def libL2 : Library :=
  { path := "/usr/lib/libL2", load_address := 0x400104, base_address := 0, symbols := [] }

/-- A library loaded at address 0 with a symbol at its base. -/
def libZero : Library :=
  { path := "/usr/lib/libZ", load_address := 0, base_address := 0,
    symbols := [⟨"start", 0, 8⟩] }

/-! ## String predicates used by the statements -/

/-- The string `s` contains `sub` as a contiguous substring. -/
def Contains (s sub : String) : Prop := sub.data <:+: s.data

/-- The string `s` ends with `suf`. -/
def EndsWith (s suf : String) : Prop := suf.data <:+ s.data

instance (s sub : String) : Decidable (Contains s sub) :=
  inferInstanceAs (Decidable (sub.data <:+: s.data))

instance (s suf : String) : Decidable (EndsWith s suf) :=
  inferInstanceAs (Decidable (suf.data <:+ s.data))

/-! ## The stack walker (`drspin.cpp`, lines 212-247) -/

/-- What one `ptrace(PT_IO, ...)` read of `sizeof (data)` bytes at the frame pointer
leaves behind: the return value `rv`, whether `errno == EFAULT` afterwards, and the
contents of `data[0]`, `data[1]`. -/
structure PtIo where
  rv : Int
  efault : Bool
  data0 : Nat
  data1 : Nat
deriving DecidableEq, Repr

/-- The target as the walker sees it: the outcome of the read at each address. -/
abbrev Target := Nat → PtIo

/-- How the walk of one thread ends: with the `Sample` handed to `add_sample`, or
with the failure of `assert(!rv || fault)`. -/
inductive WalkResult where
  | sample (stack : List Nat)
  | aborted
deriving DecidableEq, Repr

/-- The `for (;;)` loop of the walker; one unit of fuel per iteration, `none` when
the fuel runs out before the loop is left.  `stack.insert(stack.begin(), pc)` is
`pc :: stack`. -/
def walkLoop (target : Target) : Nat → Nat → Nat → List Nat → Option WalkResult
  | 0, _, _, _ => none
  | fuel + 1, pc, fp, stack =>
    let stack := pc :: stack
    let io := target fp
    let fault := io.efault
    if ¬ (io.rv = 0 ∨ fault = true) then some WalkResult.aborted
    else
      let next_fp := io.data0 % WORD
      let next_pc := io.data1 % WORD
      if next_fp ≤ fp ∨ wsub next_fp fp > 1024 * 1024 ∨ fault = true then
        some (WalkResult.sample stack)
      else walkLoop target fuel next_pc next_fp stack

/-- The walk of one thread from its registers `pc` and `fp`.  The frame pointer
grows on every iteration that continues, so `WORD - fp` iterations always suffice
(see `stackWalk_terminates`). -/
def stackWalk (target : Target) (pc fp : Nat) : Option WalkResult :=
  walkLoop target (WORD - fp) pc fp []

/-- The frames `(pc, fp)` visited by the walker, in the order it visits them:
the thread's registers first, then for each frame the return address and frame
pointer read from it, for as long as the walker continues. -/
def walkFrames (target : Target) : Nat → Nat → Nat → List (Nat × Nat)
  | 0, _, _ => []
  | fuel + 1, pc, fp =>
    let io := target fp
    let next_fp := io.data0 % WORD
    let next_pc := io.data1 % WORD
    if next_fp ≤ fp ∨ wsub next_fp fp > 1024 * 1024 ∨ io.efault = true then [(pc, fp)]
    else (pc, fp) :: walkFrames target fuel next_pc next_fp

/-- A faulting read. -/
def ptFault : PtIo := ⟨-1, true, 0, 0⟩

/-- Scenario S6: the frame at `0x1000` points back at itself. -/
def targetS6 : Target := fun a =>
  if a = 0x1000 then ⟨0, false, 0x1000, 0xB⟩ else ptFault

/-- A target with two frames: the frame at `0x1000` links to the frame at `0x1010`
with return address `0xB`; the frame at `0x1010` ends the chain. -/
def targetTwoFrames : Target := fun a =>
  if a = 0x1000 then ⟨0, false, 0x1010, 0xB⟩
  else if a = 0x1010 then ⟨0, false, 0, 0xC⟩
  else ptFault

/-- A cyclic frame chain: the frames at `0x1000` and `0x1010` link to each other. -/
def targetCycle : Target := fun a =>
  if a = 0x1000 then ⟨0, false, 0x1010, 0xB⟩
  else if a = 0x1010 then ⟨0, false, 0x1000, 0xC⟩
  else ptFault

/-! ## The call tree (`drspin.cpp`, lines 25-119) -/

/-- Embedding of `struct TreeFrame`: `_address`, `_count` (an `unsigned int`) and
`_children`. -/
inductive TreeFrame where
  | mk (address : Nat) (count : Nat) (children : List TreeFrame)

namespace TreeFrame

/-- The `_address` member. -/
def address : TreeFrame → Nat
  | mk a _ _ => a

/-- The `_count` member. -/
def count : TreeFrame → Nat
  | mk _ c _ => c

/-- The `_children` member. -/
def children : TreeFrame → List TreeFrame
  | mk _ _ ch => ch

/-- Embedding of the constructor `TreeFrame(address)`. -/
def new (address : Nat) : TreeFrame := mk address 0 []

/-- Embedding of `TreeFrame::increment`: `_count += value` on an `unsigned int`. -/
def increment (value : Nat) : TreeFrame → TreeFrame
  | mk a c ch => mk a ((c + value) % UINT) ch

/-- Embedding of `TreeFrame::operator>`. -/
def gt (a other : TreeFrame) : Bool := decide (a.count > other.count)

end TreeFrame

/-- Embedding of `TreeFrame::child(address)` followed by an update `f` of the
child it returns: the first child with that address is updated in place; when
there is none, `TreeFrame(address)` is pushed to the back and updated there. -/
def updateChild (address : Nat) (f : TreeFrame → TreeFrame) : List TreeFrame → List TreeFrame
  | [] => [f (TreeFrame.new address)]
  | child :: rest =>
    if child.address = address then f child :: rest
    else child :: updateChild address f rest

/-- The inner loop of `Thread::print_tree` for one sample, started at `cur_frame`:
for each address, `cur_frame = &cur_frame->child(addr); cur_frame->increment(1);`. -/
def insertSample : List Nat → TreeFrame → TreeFrame
  | [], cur_frame => cur_frame
  | addr :: rest, TreeFrame.mk a c ch =>
    TreeFrame.mk a c (updateChild addr (fun child => insertSample rest (child.increment 1)) ch)

/-- Embedding of `RootTreeFrame()`. -/
def RootTreeFrame.new : TreeFrame := TreeFrame.new 0

/-- The tree built by the outer loop of `Thread::print_tree` from `_samples`,
before it is sorted. -/
def Thread.buildTree (samples : List (List Nat)) : TreeFrame :=
  samples.foldl (fun root sample => insertSample sample root) RootTreeFrame.new

/-- What the code relies on from `std::sort(first, last, std::greater<TreeFrame>())`:
the result is a permutation of the range and no element is greater than an element
in front of it.  The order among elements that compare equal is left open, as it is
by `std::sort`. -/
structure StdSort where
  sort : List TreeFrame → List TreeFrame
  perm : ∀ l, (sort l).Perm l
  sorted : ∀ l, (sort l).Pairwise (fun a b => TreeFrame.gt b a = false)

/-- Embedding of `TreeFrame::sort`: sort the children, then sort each child. -/
def TreeFrame.sort (S : StdSort) : TreeFrame → TreeFrame
  | TreeFrame.mk a c ch =>
    TreeFrame.mk a c ((S.sort ch).attach.map (fun child => TreeFrame.sort S child.1))
termination_by t => sizeOf t
decreasing_by
  rename_i address children
  have hmem : child.1 ∈ children := (S.perm children).mem_iff.mp child.2
  have hlt := List.sizeOf_lt_of_mem hmem
  simp only [TreeFrame.mk.sizeOf_spec]
  omega

/-- Path lookup: the node reached from `t` by following, for each address of the
path, the first child with that address. -/
def TreeFrame.find : List Nat → TreeFrame → Option TreeFrame
  | [], t => some t
  | a :: p, TreeFrame.mk _ _ ch =>
    match ch.find? (fun child => decide (child.address = a)) with
    | none => none
    | some child => TreeFrame.find p child

mutual
/-- All nodes of a tree, the root first. -/
def TreeFrame.nodes : TreeFrame → List TreeFrame
  | TreeFrame.mk a c ch => TreeFrame.mk a c ch :: TreeFrame.nodesList ch
/-- All nodes of a list of trees. -/
def TreeFrame.nodesList : List TreeFrame → List TreeFrame
  | [] => []
  | t :: ts => TreeFrame.nodes t ++ TreeFrame.nodesList ts
end

/-! ## Printing -/

/-- Embedding of the `printf` conversions `%#lx` and `%#x`: lower-case hexadecimal
with the prefix `0x`, except that zero is printed as `0`. -/
def fmtHexAlt (n : Nat) : String :=
  if n = 0 then "0" else "0x" ++ String.mk (Nat.toDigits 16 n)

/-- The line printed by `printf("%*s%u  %s (%#lx)\n", indentation, "", _count,
symbolicator.symbolicate(_address).c_str(), _address)`. -/
def printLine (symbolicate : Nat → String) (indentation : Nat) (t : TreeFrame) : String :=
  String.mk (List.replicate indentation ' ') ++ toString t.count ++ "  "
    ++ symbolicate t.address ++ " (" ++ fmtHexAlt t.address ++ ")\n"

mutual
/-- Embedding of `TreeFrame::print_tree_with_indentation`; the result is the list of
the strings printed, one per `printf` call. -/
def TreeFrame.print_tree_with_indentation (symbolicate : Nat → String) (indentation : Nat) :
    TreeFrame → List String
  | TreeFrame.mk a c ch =>
    printLine symbolicate indentation (TreeFrame.mk a c ch)
      :: TreeFrame.printChildren symbolicate (indentation + 2) ch
/-- The loop `for (const TreeFrame &child : _children)` printing each child at the
given indentation. -/
def TreeFrame.printChildren (symbolicate : Nat → String) (indentation : Nat) :
    List TreeFrame → List String
  | [] => []
  | child :: rest =>
    TreeFrame.print_tree_with_indentation symbolicate indentation child
      ++ TreeFrame.printChildren symbolicate indentation rest
end

/-- Embedding of `RootTreeFrame::print_tree_with_indentation`: the root prints
nothing for itself and prints its children at its own indentation. -/
def RootTreeFrame.print_tree_with_indentation (symbolicate : Nat → String) (indentation : Nat)
    (root : TreeFrame) : List String :=
  TreeFrame.printChildren symbolicate indentation root.children

/-- Embedding of `Thread::print_tree`: header, tree built from the samples, sorted
and printed from indentation 2, and an empty line. -/
def Thread.print_tree (S : StdSort) (symbolicate : Nat → String) (lwpid : Nat)
    (samples : List (List Nat)) : List String :=
  ["  Thread " ++ fmtHexAlt (lwpid % UINT) ++ ":\n"]
    ++ RootTreeFrame.print_tree_with_indentation symbolicate 2
        ((Thread.buildTree samples).sort S)
    ++ ["\n"]

mutual
/-- The nodes of a tree in depth-first pre-order, each with its depth; `d` is the
depth of the root of the tree. -/
def TreeFrame.preorder (d : Nat) : TreeFrame → List (Nat × TreeFrame)
  | TreeFrame.mk a c ch => (d, TreeFrame.mk a c ch) :: TreeFrame.preorderList (d + 1) ch
/-- Pre-order listing of a list of sibling trees at depth `d`. -/
def TreeFrame.preorderList (d : Nat) : List TreeFrame → List (Nat × TreeFrame)
  | [] => []
  | t :: ts => TreeFrame.preorder d t ++ TreeFrame.preorderList d ts
end

/-- The comparison under which `std::sort` with `std::greater` leaves a range
sorted: non-increasing count. -/
def countGe (a b : TreeFrame) : Prop := b.count ≤ a.count

instance : DecidableRel countGe := fun a b => inferInstanceAs (Decidable (b.count ≤ a.count))

instance : IsTotal TreeFrame countGe := ⟨fun a b => Nat.le_total b.count a.count⟩

instance : IsTrans TreeFrame countGe := ⟨fun _ _ _ h1 h2 => Nat.le_trans h2 h1⟩

/-- A stable `std::sort`: insertion sort, which keeps equal elements in order. -/
def stableSort : StdSort where
  sort := List.insertionSort countGe
  perm := List.perm_insertionSort countGe
  sorted := fun l => by
    have h := List.sorted_insertionSort countGe l
    exact h.imp (fun {a b} hab => by simpa [TreeFrame.gt, countGe] using hab)

/-- The samples of scenario S1 with `A = 0xA`, ..., `E = 0xE`. -/
def samplesS1 : List (List Nat) := [[0xA, 0xB, 0xC], [0xA, 0xB, 0xC], [0xA, 0xB, 0xD], [0xA, 0xE]]

/-- The samples of scenario S2 with `X = 1`, `Y = 2`. -/
def samplesS2 : List (List Nat) := [[1], [2]]

/-- The count of the node an optional lookup result stands for (a node that does
not exist yet counts 0). -/
def optCount (o : Option TreeFrame) : Nat := (o.map TreeFrame.count).getD 0

/-- The children of the node an optional lookup result stands for. -/
def optChildren (o : Option TreeFrame) : List TreeFrame := (o.map TreeFrame.children).getD []

/-- No node of the tree has two children with the same address. -/
def TreeFrame.UniqueChildren (t : TreeFrame) : Prop :=
  ∀ n ∈ TreeFrame.nodes t, (n.children.map TreeFrame.address).Nodup

/-- As many as `2 ^ 32` samples, each the single address `0xA`. -/
def samplesWrap : List (List Nat) := List.replicate (2 ^ 32) [0xA]

/-! ## The library enumerator: auxiliary vector and program headers
(`freebsd-symbolicator.cpp`, lines 50-129) -/

/-- The auxiliary-vector tag `AT_PHDR` of the ELF ABI (`sys/elf_common.h`). -/
def AT_PHDR : Int := 3

/-- The auxiliary-vector tag `AT_PHNUM` of the ELF ABI (`sys/elf_common.h`). -/
def AT_PHNUM : Int := 5

/-- The program-header type `PT_LOAD` of the ELF ABI. -/
def PT_LOAD : Nat := 1

/-- The program-header type `PT_DYNAMIC` of the ELF ABI. -/
def PT_DYNAMIC : Nat := 2

/-- The value of `sizeof (Elf_Phdr)` on the 64-bit targets. -/
def SIZEOF_PHDR : Nat := 56

/-- Embedding of `Elf_Auxinfo`: the tag `a_type` (a `long`) and the 64 bits of the
union `a_un`, read as `a_un.a_val`. -/
structure Elf_Auxinfo where
  a_type : Int
  a_val : Nat
deriving DecidableEq, Repr

/-- Embedding of `Elf_Phdr`, with the members the program reads. -/
structure Elf_Phdr where
  p_type : Nat
  p_vaddr : Nat
  p_filesz : Nat
deriving DecidableEq, Repr

/-- Embedding of `RemoteArray<T>`: the members `_pid`, `_base_address`, `_count`. -/
structure RemoteArray where
  pid : Nat
  base_address : Nat
  count : Nat
deriving DecidableEq, Repr

/-- One iteration of the scan in `get_phdr_array`; the state is
`(base_address, count)`. -/
def auxvStep (st : Nat × Nat) (entry : Elf_Auxinfo) : Nat × Nat :=
  if entry.a_type = AT_PHDR then (entry.a_val % WORD, st.2)
  else if entry.a_type = AT_PHNUM then (st.1, entry.a_val % WORD)
  else st

/-- Embedding of `get_phdr_array`.  `sysctl_auxv pid` is the outcome of the
`sysctl` for `KERN_PROC_AUXV`: `none` when it does not return 0, otherwise the
`auxv_size / sizeof (Elf_Auxinfo)` entries it stored.  The result `none` stands for
`abort()`. -/
def get_phdr_array (sysctl_auxv : Nat → Option (List Elf_Auxinfo)) (pid : Nat) :
    Option RemoteArray :=
  match sysctl_auxv pid with
  | none => none
  | some auxv =>
    let st := auxv.foldl auxvStep (0, 0)
    some ⟨pid, st.1, st.2⟩

/-- Embedding of `RemoteArray<Elf_Phdr>::get`: `remote_read<Elf_Phdr>` at
`_base_address + index * sizeof (T)`; `read pid addr` is `none` when the `ptrace` read
fails (`assert(!rv)`). -/
def RemoteArray.get (read : Nat → Nat → Option Elf_Phdr) (array : RemoteArray) (index : Nat) :
    Option Elf_Phdr :=
  read array.pid (wadd array.base_address ((index * SIZEOF_PHDR) % WORD))

/-- The range-for loop of `get_dynamic_phdr` from iterator `index`, with
`remaining` elements before `end()`; `none` stands for `abort()` (no `PT_DYNAMIC`
found) or for the failed assertion of a read. -/
def getDynamicPhdrLoop (read : Nat → Nat → Option Elf_Phdr) (array : RemoteArray) :
    Nat → Nat → Option Elf_Phdr
  | 0, _ => none
  | remaining + 1, index =>
    match array.get read index with
    | none => none
    | some phdr =>
      if phdr.p_type = PT_DYNAMIC then some phdr
      else getDynamicPhdrLoop read array remaining (index + 1)

/-- Embedding of `get_dynamic_phdr`. -/
def get_dynamic_phdr (sysctl_auxv : Nat → Option (List Elf_Auxinfo))
    (read : Nat → Nat → Option Elf_Phdr) (pid : Nat) : Option Elf_Phdr :=
  match get_phdr_array sysctl_auxv pid with
  | none => none
  | some phdr_array => getDynamicPhdrLoop read phdr_array phdr_array.count 0

/-- The value the scan of `get_phdr_array` ends with for one tag, said directly:
the (64-bit) value of the last entry with that tag, and 0 when there is none. -/
def lastAuxvValue (tag : Int) (auxv : List Elf_Auxinfo) : Nat :=
  (((auxv.filter (fun entry => decide (entry.a_type = tag))).getLast?).map
    (fun entry => entry.a_val % WORD)).getD 0

/-- An auxiliary vector with neither an `AT_PHDR` nor an `AT_PHNUM` entry:
`AT_PAGESZ` (6) and the terminating `AT_NULL` (0). -/
def auxvNoPhdr : List Elf_Auxinfo := [⟨6, 4096⟩, ⟨0, 0⟩]

/-- An auxiliary vector with an `AT_PHNUM` entry but no `AT_PHDR` entry. -/
def auxvOnlyPhnum : List Elf_Auxinfo := [⟨5, 1⟩, ⟨6, 4096⟩, ⟨0, 0⟩]

/-- A target whose memory at address 0 is readable and holds a `PT_DYNAMIC` header. -/
def readZeroPage : Nat → Nat → Option Elf_Phdr := fun _ addr =>
  if addr = 0 then some ⟨2, 0x3000, 0x100⟩ else none

/-! ## Construction of libraries (`freebsd-symbolicator.cpp`, lines 181-247 and
286-293; `util.h`) -/

/-- What the code relies on from `std::sort(first, last, comp)`: the result is a
permutation of the range in which no element is `comp`-before an element in front of
it.  The order among equivalent elements is left open. -/
structure StdSortOf (α : Type) (comp : α → α → Bool) where
  sort : List α → List α
  perm : ∀ l, (sort l).Perm l
  sorted : ∀ l, (sort l).Pairwise (fun a b => comp b a = false)

/-- The comparison lambda of the symbol sort in `Library::Library`:
`a.address() < b.address()`. -/
def symbolLess (a b : Symbol) : Bool := decide (a.address < b.address)

/-- The comparison lambda of the library sort in `FreeBSDSymbolicator`:
`a.load_address() < b.load_address()`. -/
def libraryLess (a b : Library) : Bool := decide (a.load_address < b.load_address)

/-- The section type `SHT_SYMTAB` of the ELF ABI. -/
def SHT_SYMTAB : Nat := 2

/-- The section type `SHT_STRTAB` of the ELF ABI. -/
def SHT_STRTAB : Nat := 3

/-- The section type `SHT_DYNSYM` of the ELF ABI. -/
def SHT_DYNSYM : Nat := 11

/-- The value of `sizeof (Elf_Shdr)` on the 64-bit targets. -/
def SIZEOF_SHDR : Nat := 64

/-- The value of `sizeof (Elf_Sym)` on the 64-bit targets. -/
def SIZEOF_SYM : Nat := 24

/-- Embedding of `Elf_Ehdr`, with the members the program reads. -/
structure Elf_Ehdr where
  e_phoff : Nat
  e_phnum : Nat
  e_shoff : Nat
  e_shnum : Nat
  e_shstrndx : Nat
deriving DecidableEq, Repr

/-- Embedding of `Elf_Shdr`, with the members the program reads. -/
structure Elf_Shdr where
  sh_name : Nat
  sh_type : Nat
  sh_offset : Nat
  sh_size : Nat
deriving DecidableEq, Repr

/-- Embedding of `Elf_Sym`, with the members the program reads. -/
structure Elf_Sym where
  st_name : Nat
  st_value : Nat
  st_size : Nat
deriving DecidableEq, Repr

/-- Embedding of `MappedFile`: the mapped bytes as the typed views the program takes
of them with `read<T>(offset)`, one function of the byte offset per type `T`
(`str_at` is the NUL-terminated string at the offset). -/
structure MappedFile where
  ehdr_at : Nat → Elf_Ehdr
  phdr_at : Nat → Elf_Phdr
  shdr_at : Nat → Elf_Shdr
  sym_at : Nat → Elf_Sym
  str_at : Nat → String

/-- Embedding of `MappedFile::read_array<T>(offset, count)` as the list of its
`count` elements; `size` is `sizeof (T)`. -/
def readArray {α : Type} (view : Nat → α) (size offset count : Nat) : List α :=
  (List.range count).map (fun index => view (offset + index * size))

/-- The tables found by the walk over the section headers in `Library::Library`:
`symtab`, `dynsymtab`, and the file offsets of `strtab` and `dynstrtab` (`none` for
`NULL`). -/
structure SymbolTables where
  symtab : List Elf_Sym
  dynsymtab : List Elf_Sym
  strtab : Option Nat
  dynstrtab : Option Nat

/-- One iteration of the walk over the section headers (`freebsd-symbolicator.cpp`,
lines 208-222); `shstrtab` is the file offset of the section-name string table. -/
def sectionStep (file : MappedFile) (shstrtab : Nat) (tables : SymbolTables)
    (section_ : Elf_Shdr) : SymbolTables :=
  let table :=
    readArray file.sym_at SIZEOF_SYM section_.sh_offset (section_.sh_size / SIZEOF_SYM)
  if section_.sh_type = SHT_SYMTAB then { tables with symtab := table }
  else if section_.sh_type = SHT_DYNSYM then { tables with dynsymtab := table }
  else if section_.sh_type = SHT_STRTAB then
    let name := file.str_at (shstrtab + section_.sh_name)
    if name = ".strtab" then { tables with strtab := some section_.sh_offset }
    else if name = ".dynstr" then { tables with dynstrtab := some section_.sh_offset }
    else tables
  else tables

/-- The symbols added from one symbol table (`freebsd-symbolicator.cpp`, lines
228-240): those with `st_size > 0`, named by the string at `strtab + st_name`. -/
def symbolsOfTable (file : MappedFile) (strtab : Nat) (table : List Elf_Sym) : List Symbol :=
  (table.filter (fun symbol => decide (symbol.st_size > 0))).map
    (fun symbol => ⟨file.str_at (strtab + symbol.st_name), symbol.st_value, symbol.st_size⟩)

/-- Embedding of the constructor `Library::Library(path, load_address)`.
`open_file path` is the `MappedFile` for the path (`none` when opening or mapping it
fails an assertion); `uninit` is the indeterminate content of the member
`_base_address` before any assignment.  The result `none` stands for a failed
assertion. -/
def Library.new (S : StdSortOf Symbol symbolLess) (open_file : String → Option MappedFile)
    (uninit : Nat) (path : String) (load_address : Nat) : Option Library :=
  if path = "[vdso]" then some ⟨path, load_address, uninit, []⟩
  else
    match open_file path with
    | none => none
    | some file =>
      let header := file.ehdr_at 0
      match (readArray file.phdr_at SIZEOF_PHDR header.e_phoff header.e_phnum).find?
          (fun phdr => decide (phdr.p_type = PT_LOAD)) with
      | none => none
      | some phdr =>
        let sections := readArray file.shdr_at SIZEOF_SHDR header.e_shoff header.e_shnum
        let shstrtab := (file.shdr_at (header.e_shoff + header.e_shstrndx * SIZEOF_SHDR)).sh_offset
        let tables := sections.foldl (sectionStep file shstrtab) ⟨[], [], none, none⟩
        if (tables.symtab.length = 0 ∨ tables.strtab ≠ none)
            ∧ (tables.dynsymtab.length = 0 ∨ tables.dynstrtab ≠ none) then
          some ⟨path, load_address, phdr.p_vaddr,
            S.sort (symbolsOfTable file (tables.strtab.getD 0) tables.symtab
              ++ symbolsOfTable file (tables.dynstrtab.getD 0) tables.dynsymtab)⟩
        else none

/-- Embedding of the constructor `FreeBSDSymbolicator::FreeBSDSymbolicator`: the
`_libraries` member it leaves, given the result `libraries` of `read_libraries(pid)`. -/
def FreeBSDSymbolicator.new (S : StdSortOf Library libraryLess) (libraries : List Library) :
    List Library :=
  S.sort libraries

/-- The order in which the library sort leaves a range: non-decreasing load
address. -/
def loadLe (a b : Library) : Prop := a.load_address ≤ b.load_address

instance : DecidableRel loadLe :=
  fun a b => inferInstanceAs (Decidable (a.load_address ≤ b.load_address))

instance : IsTotal Library loadLe := ⟨fun a b => Nat.le_total a.load_address b.load_address⟩

instance : IsTrans Library loadLe := ⟨fun _ _ _ h1 h2 => Nat.le_trans h1 h2⟩

/-- An admissible library sort: insertion sort. -/
def librarySort : StdSortOf Library libraryLess where
  sort := List.insertionSort loadLe
  perm := List.perm_insertionSort loadLe
  sorted := fun l => by
    have h := List.sorted_insertionSort loadLe l
    exact h.imp (fun {a b} hab => by simpa [libraryLess, loadLe] using hab)

/-- The vDSO as `read_libraries` constructs it, with some indeterminate base
address. -/
def libVdso : Library :=
  { path := "[vdso]", load_address := 0x7ffff7fc1000, base_address := 0xdeadbeef,
    symbols := [] }

/-! ## `std::sort` as implemented by GNU libstdc++ (`bits/stl_algo.h`, `bits/stl_heap.h`)

The vector is a `List`, an iterator is an index, `comp` is the comparison object.
Assignments through an iterator are `List.set`, reads are `List.getD`: its default
stands for a read outside the vector, which the source does not make. -/

namespace Gnu

/-- The constant `_S_threshold`. -/
def S_threshold : Nat := 16

/-- Embedding of `std::iter_swap(i, j)`. -/
def iter_swap {α : Type} [Inhabited α] (l : List α) (i j : Nat) : List α :=
  (l.set i (l.getD j default)).set j (l.getD i default)

/-- Embedding of `__move_median_to_first(result, a, b, c, comp)`. -/
def move_median_to_first {α : Type} [Inhabited α] (comp : α → α → Bool) (l : List α)
    (result a b c : Nat) : List α :=
  if comp (l.getD a default) (l.getD b default) then
    if comp (l.getD b default) (l.getD c default) then iter_swap l result b
    else if comp (l.getD a default) (l.getD c default) then iter_swap l result c
    else iter_swap l result a
  else if comp (l.getD a default) (l.getD c default) then iter_swap l result a
  else if comp (l.getD b default) (l.getD c default) then iter_swap l result c
  else iter_swap l result b

/-- The loop `while (comp(first, pivot)) ++first` of `__unguarded_partition`: the
iterator it stops at; `fuel` bounds the steps (the end of the vector is never
passed). -/
def scanUp {α : Type} [Inhabited α] (comp : α → α → Bool) (l : List α) (pivot : Nat) :
    Nat → Nat → Nat
  | 0, first => first
  | fuel + 1, first =>
    if comp (l.getD first default) (l.getD pivot default) then scanUp comp l pivot fuel (first + 1)
    else first

/-- The loop `while (comp(pivot, last)) --last` of `__unguarded_partition`: the
iterator it stops at. -/
def scanDown {α : Type} [Inhabited α] (comp : α → α → Bool) (l : List α) (pivot : Nat) :
    Nat → Nat
  | 0 => 0
  | last + 1 =>
    if comp (l.getD pivot default) (l.getD (last + 1) default) then scanDown comp l pivot last
    else last + 1

/-- Embedding of `__unguarded_partition(first, last, pivot, comp)`: the vector and the
iterator it returns; one unit of `fuel` per iteration of the outer loop. -/
def unguarded_partition {α : Type} [Inhabited α] (comp : α → α → Bool) (pivot : Nat) :
    Nat → List α → Nat → Nat → List α × Nat
  | 0, l, first, _ => (l, first)
  | fuel + 1, l, first, last =>
    let first := scanUp comp l pivot (l.length - first) first
    let last := scanDown comp l pivot (last - 1)
    if ¬ (first < last) then (l, first)
    else unguarded_partition comp pivot fuel (iter_swap l first last) (first + 1) last

/-- Embedding of `__unguarded_partition_pivot(first, last, comp)`. -/
def unguarded_partition_pivot {α : Type} [Inhabited α] (comp : α → α → Bool) (l : List α)
    (first last : Nat) : List α × Nat :=
  let mid := first + (last - first) / 2
  let l := move_median_to_first comp l first (first + 1) mid (last - 1)
  unguarded_partition comp first l.length l (first + 1) last

/-- Embedding of `__push_heap(first, holeIndex, topIndex, value, comp)`; `fuel`
bounds the iterations (the hole moves to its parent each time). -/
def push_heap {α : Type} [Inhabited α] (comp : α → α → Bool) (first topIndex : Nat) (value : α) :
    Nat → List α → Nat → List α
  | 0, l, holeIndex => l.set (first + holeIndex) value
  | fuel + 1, l, holeIndex =>
    let parent := (holeIndex - 1) / 2
    if holeIndex > topIndex ∧ comp (l.getD (first + parent) default) value = true then
      push_heap comp first topIndex value fuel
        (l.set (first + holeIndex) (l.getD (first + parent) default)) parent
    else l.set (first + holeIndex) value

/-- The first loop of `__adjust_heap`: the vector, the hole and `secondChild` after
it. -/
def adjustHeapLoop {α : Type} [Inhabited α] (comp : α → α → Bool) (first len : Nat) :
    Nat → List α → Nat → Nat → List α × Nat × Nat
  | 0, l, holeIndex, secondChild => (l, holeIndex, secondChild)
  | fuel + 1, l, holeIndex, secondChild =>
    if secondChild < (len - 1) / 2 then
      let secondChild := 2 * (secondChild + 1)
      let secondChild :=
        if comp (l.getD (first + secondChild) default) (l.getD (first + (secondChild - 1)) default)
        then secondChild - 1 else secondChild
      adjustHeapLoop comp first len fuel
        (l.set (first + holeIndex) (l.getD (first + secondChild) default)) secondChild secondChild
    else (l, holeIndex, secondChild)

/-- Embedding of `__adjust_heap(first, holeIndex, len, value, comp)`. The distances
are signed in the source: `(len - 2) / 2` is compared as an integer (it is evaluated
for even `len` only, where the division is exact). -/
def adjust_heap {α : Type} [Inhabited α] (comp : α → α → Bool) (l : List α)
    (first holeIndex len : Nat) (value : α) : List α :=
  let topIndex := holeIndex
  let r := adjustHeapLoop comp first len len l holeIndex holeIndex
  let l := r.1
  let holeIndex := r.2.1
  let secondChild := r.2.2
  if len % 2 = 0 ∧ (secondChild : Int) = ((len : Int) - 2) / 2 then
    let secondChild := 2 * (secondChild + 1)
    let l := l.set (first + holeIndex) (l.getD (first + (secondChild - 1)) default)
    push_heap comp first topIndex value len l (secondChild - 1)
  else push_heap comp first topIndex value len l holeIndex

/-- Embedding of `__pop_heap(first, last, result, comp)`. -/
def pop_heap {α : Type} [Inhabited α] (comp : α → α → Bool) (l : List α)
    (first last result : Nat) : List α :=
  let value := l.getD result default
  let l := l.set result (l.getD first default)
  adjust_heap comp l first 0 (last - first) value

/-- The loop of `__make_heap` from `parent` down to 0. -/
def makeHeapLoop {α : Type} [Inhabited α] (comp : α → α → Bool) (first len : Nat) :
    Nat → List α → List α
  | 0, l => adjust_heap comp l first 0 len (l.getD first default)
  | parent + 1, l =>
    makeHeapLoop comp first len parent
      (adjust_heap comp l first (parent + 1) len (l.getD (first + (parent + 1)) default))

/-- Embedding of `__make_heap(first, last, comp)`. -/
def make_heap {α : Type} [Inhabited α] (comp : α → α → Bool) (l : List α) (first last : Nat) :
    List α :=
  if last - first < 2 then l
  else makeHeapLoop comp first (last - first) ((last - first - 2) / 2) l

/-- Embedding of `__sort_heap(first, last, comp)`; `fuel` bounds the iterations. -/
def sort_heap {α : Type} [Inhabited α] (comp : α → α → Bool) (first : Nat) :
    Nat → List α → Nat → List α
  | 0, l, _ => l
  | fuel + 1, l, last =>
    if last - first > 1 then sort_heap comp first fuel (pop_heap comp l first (last - 1) (last - 1))
      (last - 1)
    else l

/-- The loop of `__heap_select` over `[i, last)`. -/
def heapSelectLoop {α : Type} [Inhabited α] (comp : α → α → Bool) (first middle last : Nat) :
    Nat → List α → Nat → List α
  | 0, l, _ => l
  | fuel + 1, l, i =>
    if i < last then
      if comp (l.getD i default) (l.getD first default) then
        heapSelectLoop comp first middle last fuel (pop_heap comp l first middle i) (i + 1)
      else heapSelectLoop comp first middle last fuel l (i + 1)
    else l

/-- Embedding of `__heap_select(first, middle, last, comp)`. -/
def heap_select {α : Type} [Inhabited α] (comp : α → α → Bool) (l : List α)
    (first middle last : Nat) : List α :=
  heapSelectLoop comp first middle last (last - middle) (make_heap comp l first middle) middle

/-- Embedding of `__partial_sort(first, middle, last, comp)`. -/
def partial_sort {α : Type} [Inhabited α] (comp : α → α → Bool) (l : List α)
    (first middle last : Nat) : List α :=
  sort_heap comp first (middle - first) (heap_select comp l first middle last) middle

/-- Embedding of `__introsort_loop(first, last, depth_limit, comp)`: the `while` loop
continues as the second call, with the decremented depth limit and `last = cut`. -/
def introsort_loop {α : Type} [Inhabited α] (comp : α → α → Bool) :
    Nat → List α → Nat → Nat → List α
  | 0, l, first, last =>
    if last - first > S_threshold then partial_sort comp l first last last else l
  | depth_limit + 1, l, first, last =>
    if last - first > S_threshold then
      let r := unguarded_partition_pivot comp l first last
      let l := introsort_loop comp depth_limit r.1 r.2 last
      introsort_loop comp depth_limit l first r.2
    else l

/-- Embedding of `__unguarded_linear_insert` on the sorted range in front of the
element, read from its right end: every element that `val` is `comp`-before moves one
place to the right, and `val` goes into the gap. -/
def linearInsertRev {α : Type} (comp : α → α → Bool) (val : α) : List α → List α
  | [] => [val]
  | next :: rest =>
    if comp val next then next :: linearInsertRev comp val rest else val :: next :: rest

/-- Embedding of `__unguarded_linear_insert(last, comp)`: `front` is the range in front
of `last` and `val` the element at `last`. -/
def unguarded_linear_insert {α : Type} (comp : α → α → Bool) (front : List α) (val : α) :
    List α :=
  (linearInsertRev comp val front.reverse).reverse

/-- One iteration of the loop of `__insertion_sort`: when the element is `comp`-before
the first element, the whole front moves back by one (`move_backward`) and the element
becomes the first; otherwise it is inserted with `__unguarded_linear_insert`. -/
def insertionStep {α : Type} (comp : α → α → Bool) (front : List α) (val : α) : List α :=
  match front with
  | [] => [val]
  | first :: _ => if comp val first then val :: front else unguarded_linear_insert comp front val

/-- Embedding of `__insertion_sort(first, last, comp)` on the whole range. -/
def insertion_sort {α : Type} (comp : α → α → Bool) : List α → List α
  | [] => []
  | first :: rest => rest.foldl (insertionStep comp) [first]

/-- Embedding of `__final_insertion_sort(first, last, comp)` on the whole vector. -/
def final_insertion_sort {α : Type} (comp : α → α → Bool) (l : List α) : List α :=
  if l.length > S_threshold then
    (l.drop S_threshold).foldl (unguarded_linear_insert comp)
      (insertion_sort comp (l.take S_threshold))
  else insertion_sort comp l

/-- Embedding of `std::__lg(n)`: the floor of the binary logarithm. -/
def lgLoop : Nat → Nat → Nat
  | 0, _ => 0
  | fuel + 1, n => if n < 2 then 0 else lgLoop fuel (n / 2) + 1

/-- Embedding of `std::sort(v.begin(), v.end(), comp)` (`std::__sort`). -/
def sort {α : Type} [Inhabited α] (comp : α → α → Bool) (l : List α) : List α :=
  if l.length = 0 then l
  else final_insertion_sort comp (introsort_loop comp (lgLoop l.length l.length * 2) l 0 l.length)

end Gnu

/-- The `TreeFrame` that a read at a position outside the vector stands for in the
embedding of `std::sort`. -/
instance : Inhabited TreeFrame := ⟨TreeFrame.new 0⟩

/-- Seventeen samples of one address each, the addresses `1`, ..., `17`. -/
def samplesTies : List (List Nat) :=
  [[1], [2], [3], [4], [5], [6], [7], [8], [9], [10], [11], [12], [13], [14], [15], [16], [17]]

/-! ## Theorems -/

/-! ### Binary search -/

/-- The `std::upper_bound` loop finds the partition point of a range that is
partitioned with respect to `gt`. -/
theorem upperBoundLoop_partition {α : Type} (gt : α → Bool) (pre post : List α)
    (hpre : ∀ x ∈ pre, gt x = false) (hpost : ∀ x ∈ post, gt x = true) :
    ∀ fuel first len, len ≤ fuel → first ≤ pre.length → pre.length ≤ first + len →
      first + len ≤ (pre ++ post).length →
      upperBoundLoop (pre ++ post) gt fuel first len = pre.length := by
  intro fuel
  induction fuel with
  | zero =>
    intro first len hf h1 h2 _
    simp only [upperBoundLoop]
    omega
  | succ fuel ih =>
    intro first len hf h1 h2 h3
    rw [upperBoundLoop]
    by_cases hlen : len = 0
    · rw [if_pos hlen]; omega
    · rw [if_neg hlen]
      have hmid : first + len / 2 < (pre ++ post).length := by
        have : len / 2 < len := Nat.div_lt_self (Nat.pos_of_ne_zero hlen) (by decide)
        omega
      simp only [List.getElem?_eq_getElem hmid]
      by_cases hlt : first + len / 2 < pre.length
      · have hx : gt (pre ++ post)[first + len / 2] = false := by
          apply hpre
          have h := @List.getElem?_append_left _ pre post _ hlt
          rw [List.getElem?_eq_getElem hmid, List.getElem?_eq_getElem hlt] at h
          have h2 := Option.some.inj h
          rw [h2]
          exact List.getElem_mem _
        simp only [hx]
        apply ih <;> omega
      · have hge : pre.length ≤ first + len / 2 := Nat.le_of_not_lt hlt
        have hx : gt (pre ++ post)[first + len / 2] = true := by
          apply hpost
          have h := @List.getElem?_append_right _ pre post _ hge
          rw [List.getElem?_eq_getElem hmid] at h
          exact List.getElem?_mem h.symm
        simp only [hx, if_true]
        apply ih <;> omega

/-- On a partitioned vector `std::upper_bound` returns the partition point. -/
theorem upper_bound_partition {α : Type} (gt : α → Bool) (pre post : List α)
    (hpre : ∀ x ∈ pre, gt x = false) (hpost : ∀ x ∈ post, gt x = true) :
    upper_bound (pre ++ post) gt = pre.length := by
  unfold upper_bound
  apply upperBoundLoop_partition gt pre post hpre hpost
  · exact Nat.le_refl _
  · exact Nat.zero_le _
  · simp
  · simp

/-- The element in front of the partition point. -/
theorem getElem?_before_partition {α : Type} (pre post : List α) (x : α) :
    (pre ++ x :: post)[(pre ++ [x]).length - 1]? = some x := by
  have h : (pre ++ [x]).length - 1 = pre.length := by simp
  rw [h, List.getElem?_append_right (Nat.le_refl _)]
  simp

/-! ### Symbolicator -/

theorem WORD_eq : WORD = 18446744073709551616 := by decide

/-- When `S` is the last symbol of the library with `address ≤ u`,
`Library::symbolicate(u)` inspects exactly `S`. -/
theorem Library.symbolicate_at_last_symbol (l : Library) (pre post : List Symbol) (S : Symbol) (u : Nat)
    (hsplit : l.symbols = pre ++ S :: post)
    (hpre : ∀ T ∈ pre, T.address ≤ u) (hS : S.address ≤ u)
    (hpost : ∀ T ∈ post, u < T.address) :
    l.symbolicate u =
      (if wsub u S.address < S.size then S.name ++ " + " ++ toString (wsub u S.address)
        else "???") ++ " (in " ++ l.name ++ ")" := by
  have hsplit2 : l.symbols = (pre ++ [S]) ++ post := by simp [hsplit]
  have hub : upper_bound l.symbols (fun symbol => decide (u < symbol.address))
      = (pre ++ [S]).length := by
    rw [hsplit2]
    apply upper_bound_partition
    · intro x hx
      rcases List.mem_append.mp hx with h | h
      · simpa using hpre x h
      · have : x = S := by simpa using h
        subst this
        simpa using hS
    · intro x hx
      simpa using hpost x hx
  have hget : l.symbols[(pre ++ [S]).length - 1]? = some S := by
    rw [hsplit]
    exact getElem?_before_partition _ _ _
  unfold Library.symbolicate
  simp only [hub, hget]
  have hne : (pre ++ [S]).length ≠ 0 := by simp
  simp only [hne, not_false_eq_true, if_true, ne_eq]

/-- In a vector sorted by address, everything before a symbol with
`address ≤ u` has `address ≤ u`. -/
theorem sorted_prefix_le (pre post : List Symbol) (S : Symbol) (u : Nat)
    (hsorted : (pre ++ S :: post).Pairwise (fun a b => a.address ≤ b.address))
    (hS : S.address ≤ u) : ∀ T ∈ pre, T.address ≤ u := by
  intro T hT
  have h := (List.pairwise_append.mp hsorted).2.2 T hT S (List.mem_cons_self _ _)
  exact Nat.le_trans h hS

/-- When `L` is the last library with `load_address ≤ a` and `a ≠ 0`,
`FreeBSDSymbolicator::symbolicate(a)` delegates to `L` at the unslid address. -/
theorem FreeBSDSymbolicator.symbolicate_at_last_library (libs pre post : List Library) (L : Library)
    (a : Nat) (hsplit : libs = pre ++ L :: post) (ha : a ≠ 0)
    (hpre : ∀ M ∈ pre, M.load_address ≤ a) (hL : L.load_address ≤ a)
    (hpost : ∀ M ∈ post, a < M.load_address) :
    FreeBSDSymbolicator.symbolicate libs a =
      L.symbolicate (wsub (wadd L.base_address a) L.load_address) := by
  have hsplit2 : libs = (pre ++ [L]) ++ post := by simp [hsplit]
  have hub : upper_bound libs (fun library => decide (a < library.load_address))
      = (pre ++ [L]).length := by
    rw [hsplit2]
    apply upper_bound_partition
    · intro x hx
      rcases List.mem_append.mp hx with h | h
      · simpa using hpre x h
      · have : x = L := by simpa using h
        subst this
        simpa using hL
    · intro x hx
      simpa using hpost x hx
  have hget : libs[(pre ++ [L]).length - 1]? = some L := by
    rw [hsplit]
    exact getElem?_before_partition _ _ _
  unfold FreeBSDSymbolicator.symbolicate
  rw [if_neg ha]
  simp only [hub, hget]
  have hne : (pre ++ [L]).length ≠ 0 := by simp
  simp only [hne, not_false_eq_true, if_true, ne_eq]

/-- The unslid query computed for the runtime address of `S + k` is `S.address + k`,
whatever the slide. -/
theorem unslide_slide (load base saddr k : Nat) (hw : saddr + k < WORD) :
    wsub (wadd base (wadd (wadd load (wsub saddr base)) k)) load = saddr + k := by
  simp only [wsub, wadd, WORD_eq] at *
  omega

/-- C1 (amended): exact hit.  For libraries sorted by `load_address`, a library `L`
among them, a symbol `S` of `L` (symbols sorted by address) and `k < S.size`, let
`a = L.load_address + (S.address - L.base_address) + k` in 64-bit arithmetic.  If
`a ≠ 0`, `L` is the last library with `load_address ≤ a`, and `S` is the last
symbol of `L` with `address ≤ S.address + k` (which does not wrap), then
`FreeBSDSymbolicator::symbolicate(a)` is exactly
`"<S.name> + <k> (in <basename of L.path>)"`; in particular it contains
`"<S.name> + <k>"` and ends with `"(in <basename of L.path>)"`. -/
theorem symbolicate_exact_hit (libs lpre lpost : List Library) (L : Library)
    (spre spost : List Symbol) (S : Symbol) (k : Nat)
    (hlibs : libs = lpre ++ L :: lpost)
    (hsortedL : libs.Pairwise (fun x y => x.load_address ≤ y.load_address))
    (hsyms : L.symbols = spre ++ S :: spost)
    (hsortedS : L.symbols.Pairwise (fun x y => x.address ≤ y.address))
    (hk : k < S.size) (hw : S.address + k < WORD)
    (ha0 : wadd (wadd L.load_address (wsub S.address L.base_address)) k ≠ 0)
    (hLa : L.load_address ≤ wadd (wadd L.load_address (wsub S.address L.base_address)) k)
    (hLlast : ∀ M ∈ lpost,
      wadd (wadd L.load_address (wsub S.address L.base_address)) k < M.load_address)
    (hSlast : ∀ T ∈ spost, S.address + k < T.address) :
    FreeBSDSymbolicator.symbolicate libs
        (wadd (wadd L.load_address (wsub S.address L.base_address)) k)
      = S.name ++ " + " ++ toString k ++ " (in " ++ basename L.path ++ ")"
    ∧ Contains (FreeBSDSymbolicator.symbolicate libs
        (wadd (wadd L.load_address (wsub S.address L.base_address)) k))
        (S.name ++ " + " ++ toString k)
    ∧ EndsWith (FreeBSDSymbolicator.symbolicate libs
        (wadd (wadd L.load_address (wsub S.address L.base_address)) k))
        ("(in " ++ basename L.path ++ ")") := by
  have hpreL : ∀ M ∈ lpre, M.load_address ≤
      wadd (wadd L.load_address (wsub S.address L.base_address)) k := by
    intro M hM
    rw [hlibs] at hsortedL
    exact Nat.le_trans
      ((List.pairwise_append.mp hsortedL).2.2 M hM L (List.mem_cons_self _ _)) hLa
  have hpreS : ∀ T ∈ spre, T.address ≤ S.address + k := by
    rw [hsyms] at hsortedS
    exact sorted_prefix_le spre spost S _ hsortedS (Nat.le_add_right _ _)
  have hoff : wsub (S.address + k) S.address = k := by
    have hkW : k < WORD := by omega
    simp only [wsub, WORD_eq] at *
    omega
  have heq : FreeBSDSymbolicator.symbolicate libs
        (wadd (wadd L.load_address (wsub S.address L.base_address)) k)
      = S.name ++ " + " ++ toString k ++ " (in " ++ basename L.path ++ ")" := by
    rw [FreeBSDSymbolicator.symbolicate_at_last_library libs lpre lpost L _ hlibs ha0 hpreL hLa hLlast,
      unslide_slide _ _ _ _ hw,
      Library.symbolicate_at_last_symbol L spre spost S _ hsyms hpreS (Nat.le_add_right _ _) hSlast,
      hoff, if_pos hk]
    rfl
  refine ⟨heq, ?_, ?_⟩
  · rw [heq]
    refine ⟨[], (" (in " ++ basename L.path ++ ")").data, ?_⟩
    simp [String.data_append]
  · rw [heq]
    refine ⟨(S.name ++ " + " ++ toString k ++ " ").data, ?_⟩
    simp [String.data_append]

/-- Witness for `symbolicate_exact_hit`: scenario S3 at the runtime address of
`foo + 5`, which is `0x400000 + (0x1100 - 0x1000) + 5 = 0x400105`. -/
theorem symbolicate_exact_hit_witness :
    wadd (wadd libL1.load_address (wsub 0x1100 libL1.base_address)) 5 = 0x400105
    ∧ FreeBSDSymbolicator.symbolicate [libL1] 0x400105 = "foo + 5 (in libL1)"
    ∧ Contains (FreeBSDSymbolicator.symbolicate [libL1] 0x400105) "foo + 5"
    ∧ EndsWith (FreeBSDSymbolicator.symbolicate [libL1] 0x400105) "(in libL1)" :=
  have h := symbolicate_exact_hit [libL1] [] [] libL1 [] [⟨"bar", 0x1200, 0x10⟩]
    ⟨"foo", 0x1100, 0x40⟩ 5 rfl (by simp) rfl (by decide) (by decide) (by decide)
    (by decide) (by decide) (by simp) (by decide)
  ⟨by decide, h.1, h.2.1, h.2.2⟩

/-- C1 (counterexample).  The claim fails as stated.
(1) Its own witness: with `L1` (base `0x1000`, load `0x400000`, `foo(0x1100, 0x40)`,
`bar(0x1200, 0x10)`) the address `0x401105` unslides to `0x2105`, which lies past `bar`,
so the result is `"??? (in libL1)"` and not `"foo + 5 (in libL1)"`.
(2) The general statement: in a library whose symbols `foo` and `bar` are aliases at
`0x1100`, the lookup for `foo + 5` steps back to the last symbol at that address and
answers `"bar + 5 (in libL1)"`, which does not contain `"foo + 5"`.
(3) When another library is loaded at or below the address (`libL2` at `0x400104`),
the lookup for `foo + 5` in `L1` is answered by that library.
(4) When the address is 0 (library loaded at 0, symbol at its base, `k = 0`), the
answer is `"..."`. -/
theorem symbolicate_exact_hit_counterexample :
    (FreeBSDSymbolicator.symbolicate [libL1] 0x401105 = "??? (in libL1)"
      ∧ FreeBSDSymbolicator.symbolicate [libL1] 0x401105 ≠ "foo + 5 (in libL1)"
      ∧ ¬ Contains (FreeBSDSymbolicator.symbolicate [libL1] 0x401105) "foo + 5")
    ∧ ([libAlias].Pairwise (fun x y => x.load_address ≤ y.load_address)
      ∧ libAlias.symbols.Pairwise (fun x y => x.address ≤ y.address)
      ∧ libAlias ∈ [libAlias]
      ∧ (⟨"foo", 0x1100, 0x40⟩ : Symbol) ∈ libAlias.symbols
      ∧ 5 < (0x40 : Nat)
      ∧ libAlias.load_address + (0x1100 - libAlias.base_address) + 5 = 0x400105
      ∧ FreeBSDSymbolicator.symbolicate [libAlias] 0x400105 = "bar + 5 (in libL1)"
      ∧ ¬ Contains (FreeBSDSymbolicator.symbolicate [libAlias] 0x400105) "foo + 5")
    ∧ ([libL1, libL2].Pairwise (fun x y => x.load_address ≤ y.load_address)
      ∧ FreeBSDSymbolicator.symbolicate [libL1, libL2] 0x400105 = "??? (in libL2)"
      ∧ ¬ Contains (FreeBSDSymbolicator.symbolicate [libL1, libL2] 0x400105) "foo + 5")
    ∧ ((⟨"start", 0, 8⟩ : Symbol) ∈ libZero.symbols
      ∧ libZero.load_address + (0 - libZero.base_address) + 0 = 0
      ∧ FreeBSDSymbolicator.symbolicate [libZero] 0 = "..."
      ∧ ¬ Contains (FreeBSDSymbolicator.symbolicate [libZero] 0) "start + 0") := by
  refine ⟨⟨by decide, by decide, by decide⟩, ⟨?_, ?_, ?_, ?_, ?_, ?_, ?_, ?_⟩,
    ⟨?_, ?_, ?_⟩, ⟨?_, ?_, ?_, ?_⟩⟩
  · simp
  · decide
  · simp
  · decide
  · decide
  · decide
  · decide
  · decide
  · decide
  · decide
  · decide
  · decide
  · decide
  · decide
  · decide

/-- C4 (amended): library miss.  For every non-zero address `a` and every list of
libraries in which no library has `load_address ≤ a`,
`FreeBSDSymbolicator::symbolicate(a)` is exactly `"???"`. -/
theorem symbolicate_library_miss (libs : List Library) (a : Nat) (ha : a ≠ 0)
    (hmiss : ∀ L ∈ libs, a < L.load_address) :
    FreeBSDSymbolicator.symbolicate libs a = "???" := by
  have hub : upper_bound libs (fun library => decide (a < library.load_address)) = 0 := by
    have h := upper_bound_partition (fun library : Library => decide (a < library.load_address))
      [] libs (by simp) (by intro x hx; simpa using hmiss x hx)
    simpa using h
  unfold FreeBSDSymbolicator.symbolicate
  rw [if_neg ha]
  simp [hub]

/-- Witness for `symbolicate_library_miss`: scenario S5, and the result carries no
library suffix. -/
theorem symbolicate_library_miss_witness :
    FreeBSDSymbolicator.symbolicate [libL1, libAlias] 0x1000 = "???"
    ∧ ¬ Contains (FreeBSDSymbolicator.symbolicate [libL1, libAlias] 0x1000) " (in " :=
  have h := symbolicate_library_miss [libL1, libAlias] 0x1000 (by decide) (by decide)
  ⟨h, by rw [h]; decide⟩

/-- C4 (counterexample).  Address `0` is answered by the null-address guard before any
library is consulted: with every library loaded at `0x400000`, no library has
`load_address ≤ 0`, yet the result is `"..."`, not `"???"`. -/
theorem symbolicate_library_miss_counterexample :
    (∀ L ∈ [libL1, libAlias], 0 < L.load_address)
    ∧ FreeBSDSymbolicator.symbolicate [libL1, libAlias] 0 = "..."
    ∧ FreeBSDSymbolicator.symbolicate [libL1, libAlias] 0 ≠ "???" := by
  refine ⟨by decide, by decide, by decide⟩

/-- C7: gap behaviour.  For every library whose symbols are sorted by address and
every unslid query `u` (a 64-bit word) such that `P` is the last symbol with
`P.address ≤ u` and `u - P.address ≥ P.size`, `Library::symbolicate(u)` is
`"??? (in <libname>)"`. -/
theorem Library.symbolicate_gap (l : Library) (pre post : List Symbol) (P : Symbol) (u : Nat)
    (hu : u < WORD)
    (hsorted : l.symbols.Pairwise (fun a b => a.address ≤ b.address))
    (hsplit : l.symbols = pre ++ P :: post)
    (hP : P.address ≤ u) (hlast : ∀ T ∈ post, u < T.address)
    (hgap : P.size ≤ u - P.address) :
    l.symbolicate u = "??? (in " ++ l.name ++ ")" := by
  have hpre : ∀ T ∈ pre, T.address ≤ u := by
    rw [hsplit] at hsorted
    exact sorted_prefix_le pre post P u hsorted hP
  have hoff : wsub u P.address = u - P.address := by
    simp only [wsub, WORD_eq] at *
    omega
  have hstr : "???" ++ " (in " = "??? (in " := by decide
  rw [Library.symbolicate_at_last_symbol l pre post P u hsplit hpre hP hlast, hoff,
    if_neg (Nat.not_lt.mpr hgap), hstr]

/-- Witness for `Library.symbolicate_gap`: scenario S4.  The runtime address
`0x401150` unslides to `0x2150`; the last symbol at or below it is `bar`
(`0x1200`, size `0x10`), which does not cover it. -/
theorem Library.symbolicate_gap_witness :
    wsub (wadd libL1.base_address 0x401150) libL1.load_address = 0x2150
    ∧ libL1.symbolicate 0x2150 = "??? (in " ++ libL1.name ++ ")"
    ∧ FreeBSDSymbolicator.symbolicate [libL1] 0x401150 = "??? (in libL1)" :=
  ⟨by decide,
   Library.symbolicate_gap libL1 [⟨"foo", 0x1100, 0x40⟩] [] ⟨"bar", 0x1200, 0x10⟩ 0x2150
     (by decide) (by decide) rfl (by decide) (by simp) (by decide),
   by decide⟩

/-! ### Stack walker -/

/-- One iteration of the walker's loop. -/
theorem walkLoop_succ (target : Target) (n pc fp : Nat) (stack : List Nat) :
    walkLoop target (n + 1) pc fp stack =
      if ¬ ((target fp).rv = 0 ∨ (target fp).efault = true) then some WalkResult.aborted
      else if (target fp).data0 % WORD ≤ fp ∨ wsub ((target fp).data0 % WORD) fp > 1024 * 1024
          ∨ (target fp).efault = true then
        some (WalkResult.sample (pc :: stack))
      else walkLoop target n ((target fp).data1 % WORD) ((target fp).data0 % WORD) (pc :: stack) :=
  rfl

/-- One step of the frame listing. -/
theorem walkFrames_succ (target : Target) (n pc fp : Nat) :
    walkFrames target (n + 1) pc fp =
      if (target fp).data0 % WORD ≤ fp ∨ wsub ((target fp).data0 % WORD) fp > 1024 * 1024
          ∨ (target fp).efault = true then [(pc, fp)]
      else (pc, fp) :: walkFrames target n ((target fp).data1 % WORD) ((target fp).data0 % WORD) :=
  rfl

/-- The loop is left within `WORD - fp` iterations: by the failed assertion, or with
a sample that holds at least the current `pc`. -/
theorem walkLoop_terminates (target : Target) :
    ∀ n pc fp stack, fp < WORD → WORD - fp ≤ n →
      ∃ r, walkLoop target n pc fp stack = some r ∧
        ((r = WalkResult.aborted ∧ ∃ a, ¬ ((target a).rv = 0 ∨ (target a).efault = true))
          ∨ ∃ s, r = WalkResult.sample s ∧ s ≠ []) := by
  intro n
  induction n with
  | zero => intro pc fp stack hfp hn; omega
  | succ n ih =>
    intro pc fp stack hfp hn
    rw [walkLoop_succ]
    by_cases h1 : ¬ ((target fp).rv = 0 ∨ (target fp).efault = true)
    · rw [if_pos h1]
      exact ⟨_, rfl, Or.inl ⟨rfl, fp, h1⟩⟩
    · rw [if_neg h1]
      by_cases h2 : (target fp).data0 % WORD ≤ fp
          ∨ wsub ((target fp).data0 % WORD) fp > 1024 * 1024 ∨ (target fp).efault = true
      · rw [if_pos h2]
        exact ⟨_, rfl, Or.inr ⟨_, rfl, List.cons_ne_nil _ _⟩⟩
      · rw [if_neg h2]
        have hlt : (target fp).data0 % WORD < WORD := Nat.mod_lt _ (by decide)
        have hgt : fp < (target fp).data0 % WORD := by
          by_contra hc
          exact h2 (Or.inl (Nat.le_of_not_lt hc))
        exact ih _ _ _ hlt (by omega)

/-- When every read passes the assertion, the walk returns the program counters of
the visited frames, last visited first. -/
theorem walkLoop_frames (target : Target)
    (hok : ∀ a, (target a).rv = 0 ∨ (target a).efault = true) :
    ∀ n pc fp stack, fp < WORD → WORD - fp ≤ n →
      walkLoop target n pc fp stack =
        some (WalkResult.sample (((walkFrames target n pc fp).map Prod.fst).reverse ++ stack)) := by
  intro n
  induction n with
  | zero => intro pc fp stack hfp hn; omega
  | succ n ih =>
    intro pc fp stack hfp hn
    rw [walkLoop_succ, walkFrames_succ, if_neg (not_not.mpr (hok fp))]
    by_cases h2 : (target fp).data0 % WORD ≤ fp
        ∨ wsub ((target fp).data0 % WORD) fp > 1024 * 1024 ∨ (target fp).efault = true
    · rw [if_pos h2, if_pos h2]
      simp
    · rw [if_neg h2, if_neg h2]
      have hlt : (target fp).data0 % WORD < WORD := Nat.mod_lt _ (by decide)
      have hgt : fp < (target fp).data0 % WORD := by
        by_contra hc
        exact h2 (Or.inl (Nat.le_of_not_lt hc))
      rw [ih _ _ _ hlt (by omega)]
      simp

/-- The first visited frame is the thread's registers. -/
theorem walkFrames_head (target : Target) (n pc fp : Nat) :
    (walkFrames target (n + 1) pc fp).head? = some (pc, fp) := by
  rw [walkFrames_succ]
  split_ifs <;> rfl

/-- Each visited frame after the first holds the return address and the frame
pointer read from the frame before it, and its frame pointer is larger. -/
theorem walkFrames_chain (target : Target) :
    ∀ n pc fp, (walkFrames target n pc fp).Chain'
      (fun x y => y = ((target x.2).data1 % WORD, (target x.2).data0 % WORD) ∧ x.2 < y.2) := by
  intro n
  induction n with
  | zero => intro pc fp; simp [walkFrames]
  | succ n ih =>
    intro pc fp
    rw [walkFrames_succ]
    split_ifs with h
    · simp
    · have hgt : fp < (target fp).data0 % WORD := by
        by_contra hc
        exact h (Or.inl (Nat.le_of_not_lt hc))
      rw [List.chain'_cons']
      refine ⟨?_, ih _ _⟩
      intro y hy
      cases n with
      | zero => simp [walkFrames] at hy
      | succ n =>
        rw [walkFrames_head] at hy
        have hy2 : y = ((target fp).data1 % WORD, (target fp).data0 % WORD) := by
          simpa using hy.symm
        exact ⟨hy2, by rw [hy2]; exact hgt⟩

/-- C2 (amended): sample order.  For every starting `pc` and `fp` and every target
whose reads pass the walker's assertion, the walk returns the program counters of the
visited frames from outermost to innermost: the visited frames start at the thread's
registers, each following frame holds the return address and frame pointer read from
the frame before it, and the sample is the sequence of their program counters
reversed, so the starting `pc` is its last element. -/
theorem stackWalk_order (target : Target) (pc fp : Nat) (hfp : fp < WORD)
    (hok : ∀ a, (target a).rv = 0 ∨ (target a).efault = true) :
    stackWalk target pc fp =
        some (WalkResult.sample ((walkFrames target (WORD - fp) pc fp).map Prod.fst).reverse)
    ∧ (walkFrames target (WORD - fp) pc fp).head? = some (pc, fp)
    ∧ (walkFrames target (WORD - fp) pc fp).Chain'
        (fun x y => y = ((target x.2).data1 % WORD, (target x.2).data0 % WORD))
    ∧ (((walkFrames target (WORD - fp) pc fp).map Prod.fst).reverse).getLast? = some pc := by
  obtain ⟨n, hn⟩ : ∃ n, WORD - fp = n + 1 := ⟨WORD - fp - 1, by omega⟩
  have hhead := walkFrames_head target n pc fp
  refine ⟨?_, ?_, ?_, ?_⟩
  · have h := walkLoop_frames target hok (WORD - fp) pc fp [] hfp (Nat.le_refl _)
    simpa [stackWalk] using h
  · rw [hn]; exact hhead
  · exact (walkFrames_chain target (WORD - fp) pc fp).imp (fun {_ _} h => h.1)
  · rw [hn, List.getLast?_reverse, List.head?_map, hhead]
    rfl

/-- Witness for `stackWalk_order`: two frames; the sample is `[0xB, 0xA]`, the
starting `pc = 0xA` last. -/
theorem stackWalk_order_witness :
    stackWalk targetTwoFrames 0xA 0x1000 = some (WalkResult.sample [0xB, 0xA])
    ∧ walkFrames targetTwoFrames (WORD - 0x1000) 0xA 0x1000 = [(0xA, 0x1000), (0xB, 0x1010)]
    ∧ (((walkFrames targetTwoFrames (WORD - 0x1000) 0xA 0x1000).map Prod.fst).reverse).getLast?
        = some 0xA :=
  have hok : ∀ a, (targetTwoFrames a).rv = 0 ∨ (targetTwoFrames a).efault = true := by
    intro a
    unfold targetTwoFrames ptFault
    split_ifs <;> simp
  have h := stackWalk_order targetTwoFrames 0xA 0x1000 (by decide) hok
  ⟨by decide, by decide, h.2.2.2⟩

/-- C2 (counterexample).  With two frames (`0x1000` linking to `0x1010` with return
address `0xB`) and starting `pc = 0xA`, the sample is `[0xB, 0xA]`: its first element
is the return address read from the outer frame, not the starting `pc`. -/
theorem stackWalk_order_counterexample :
    stackWalk targetTwoFrames 0xA 0x1000 = some (WalkResult.sample [0xB, 0xA])
    ∧ ([0xB, 0xA] : List Nat).head? ≠ some 0xA
    ∧ stackWalk targetTwoFrames 0xA 0x1000 ≠ some (WalkResult.sample [0xA, 0xB]) := by
  refine ⟨by decide, by decide, by decide⟩

/-- C8: non-strict growth.  For every starting `pc` and `fp`, if the read at `fp`
succeeds and yields `next_fp == fp`, the walk ends with the sample `[pc]`. -/
theorem stackWalk_self_frame (target : Target) (pc fp : Nat) (hfp : fp < WORD)
    (hrv : (target fp).rv = 0) (hnext : (target fp).data0 = fp) :
    stackWalk target pc fp = some (WalkResult.sample [pc]) := by
  obtain ⟨n, hn⟩ : ∃ n, WORD - fp = n + 1 := ⟨WORD - fp - 1, by omega⟩
  have hle : (target fp).data0 % WORD ≤ fp := by
    rw [hnext]
    exact Nat.mod_le _ _
  unfold stackWalk
  rw [hn, walkLoop_succ, if_neg (not_not.mpr (Or.inl hrv)), if_pos (Or.inl hle)]

/-- Witness for `stackWalk_self_frame`: scenario S6. -/
theorem stackWalk_self_frame_witness :
    targetS6 0x1000 = ⟨0, false, 0x1000, 0xB⟩
    ∧ stackWalk targetS6 0xA 0x1000 = some (WalkResult.sample [0xA]) :=
  ⟨by decide, stackWalk_self_frame targetS6 0xA 0x1000 (by decide) (by decide) (by decide)⟩

/-- C9: termination.  For every starting `pc` and `fp` (a 64-bit word) and every
target, the loop is left after at most `WORD - fp` iterations: either the assertion
on the read fails, or a non-empty sample is returned; `stackWalk` returns that result.
The frame pointers of the visited frames strictly increase. -/
theorem stackWalk_terminates (target : Target) (pc fp : Nat) (hfp : fp < WORD) :
    (∃ n r, n ≤ WORD - fp ∧ walkLoop target n pc fp [] = some r
      ∧ stackWalk target pc fp = some r
      ∧ ((r = WalkResult.aborted ∧ ∃ a, ¬ ((target a).rv = 0 ∨ (target a).efault = true))
        ∨ ∃ s, r = WalkResult.sample s ∧ s ≠ []))
    ∧ (walkFrames target (WORD - fp) pc fp).Chain' (fun x y => x.2 < y.2) := by
  obtain ⟨r, hr, hcase⟩ := walkLoop_terminates target (WORD - fp) pc fp [] hfp (Nat.le_refl _)
  exact ⟨⟨WORD - fp, r, Nat.le_refl _, hr, hr, hcase⟩,
    (walkFrames_chain target (WORD - fp) pc fp).imp (fun {_ _} h => h.2)⟩

/-- Witness for `stackWalk_terminates`: a cyclic frame chain (`0x1000` and `0x1010`
link to each other) ends after two iterations. -/
theorem stackWalk_terminates_witness :
    stackWalk targetCycle 0xA 0x1000 = some (WalkResult.sample [0xB, 0xA])
    ∧ ((∃ n r, n ≤ WORD - 0x1000 ∧ walkLoop targetCycle n 0xA 0x1000 [] = some r
        ∧ stackWalk targetCycle 0xA 0x1000 = some r
        ∧ ((r = WalkResult.aborted ∧
            ∃ a, ¬ ((targetCycle a).rv = 0 ∨ (targetCycle a).efault = true))
          ∨ ∃ s, r = WalkResult.sample s ∧ s ≠ []))
      ∧ (walkFrames targetCycle (WORD - 0x1000) 0xA 0x1000).Chain' (fun x y => x.2 < y.2)) :=
  ⟨by decide, stackWalk_terminates targetCycle 0xA 0x1000 (by decide)⟩

/-! ### Call tree: basic facts -/

/-- Induction over a tree: a property holds of every tree when it holds of a node
as soon as it holds of its children. -/
theorem TreeFrame.induction_on {P : TreeFrame → Prop}
    (h : ∀ a c ch, (∀ x ∈ ch, P x) → P (TreeFrame.mk a c ch)) : ∀ t, P t := by
  have key : ∀ n, ∀ t : TreeFrame, sizeOf t = n → P t := by
    intro n
    induction n using Nat.strong_induction_on with
    | _ n ih =>
      intro t hn
      cases t with
      | mk a c ch =>
        apply h
        intro x hx
        have hlt := List.sizeOf_lt_of_mem hx
        apply ih (sizeOf x) _ x rfl
        rw [← hn]
        simp only [TreeFrame.mk.sizeOf_spec]
        omega
  exact fun t => key _ t rfl

/-- Unfolding of `TreeFrame::sort` at a node: the children are sorted, then each child is. -/
theorem TreeFrame.sort_mk (S : StdSort) (a c : Nat) (ch : List TreeFrame) :
    (TreeFrame.mk a c ch).sort S = TreeFrame.mk a c ((S.sort ch).map (TreeFrame.sort S)) := by
  rw [TreeFrame.sort]
  simp [List.attach_map_val]

/-- Sorting does not change the count of a node. -/
theorem TreeFrame.count_sort (S : StdSort) (t : TreeFrame) : (t.sort S).count = t.count := by
  cases t with
  | mk a c ch => rw [TreeFrame.sort_mk]; rfl

/-- Sorting does not change the address of a node. -/
theorem TreeFrame.address_sort (S : StdSort) (t : TreeFrame) :
    (t.sort S).address = t.address := by
  cases t with
  | mk a c ch => rw [TreeFrame.sort_mk]; rfl

/-- Sorting does not change the addresses of a list of nodes. -/
theorem TreeFrame.address_comp_sort (S : StdSort) :
    TreeFrame.address ∘ TreeFrame.sort S = TreeFrame.address := by
  funext x
  simp [TreeFrame.address_sort]

/-- The children of a sorted node. -/
theorem TreeFrame.children_sort (S : StdSort) (t : TreeFrame) :
    (t.sort S).children = (S.sort t.children).map (TreeFrame.sort S) := by
  cases t with
  | mk a c ch => rw [TreeFrame.sort_mk]; rfl

/-- Membership in the node listing of a list of trees. -/
theorem TreeFrame.mem_nodesList (n : TreeFrame) :
    ∀ l : List TreeFrame, n ∈ TreeFrame.nodesList l ↔ ∃ t ∈ l, n ∈ TreeFrame.nodes t := by
  intro l
  induction l with
  | nil => simp [TreeFrame.nodesList]
  | cons t ts ih => simp [TreeFrame.nodesList, ih]

/-- The nodes of a tree are its root and the nodes of its children. -/
theorem TreeFrame.mem_nodes (n t : TreeFrame) :
    n ∈ TreeFrame.nodes t ↔ n = t ∨ ∃ x ∈ t.children, n ∈ TreeFrame.nodes x := by
  cases t with
  | mk a c ch =>
    simp only [TreeFrame.nodes, List.mem_cons, TreeFrame.mem_nodesList, TreeFrame.children]

/-! ### Call tree: sort order -/

/-- C6: sort order.  After `TreeFrame::sort` on the root of any tree, whatever
`std::sort` does with equal elements, for every node of the tree and every valid
index `i`, `child[i].count ≥ child[i+1].count`. -/
theorem TreeFrame.sort_children_nonincreasing (S : StdSort) (t : TreeFrame) :
    ∀ n ∈ TreeFrame.nodes (t.sort S), ∀ (i : Nat) (h : i + 1 < n.children.length),
      n.children[i + 1].count ≤ n.children[i].count := by
  induction t using TreeFrame.induction_on with
  | h a c ch ih =>
    intro n hn
    rw [TreeFrame.mem_nodes] at hn
    rcases hn with rfl | ⟨x, hx, hnx⟩
    · intro i h
      have hpw : ((TreeFrame.mk a c ch).sort S).children.Pairwise
          (fun p q => q.count ≤ p.count) := by
        rw [TreeFrame.children_sort, List.pairwise_map]
        refine (S.sorted ch).imp ?_
        intro p q hpq
        rw [TreeFrame.count_sort, TreeFrame.count_sort]
        simpa [TreeFrame.gt] using hpq
      exact List.pairwise_iff_getElem.mp hpw i (i + 1) (by omega) h (Nat.lt_succ_self i)
    · rw [TreeFrame.children_sort] at hx
      obtain ⟨y, hy, rfl⟩ := List.mem_map.mp hx
      have hych : y ∈ ch := (S.perm ch).mem_iff.mp hy
      exact ih y hych n hnx

/-- A range in strictly decreasing order of count is left as it is by every
admissible `std::sort`. -/
theorem StdSort.sort_eq_of_strict (S : StdSort) (l : List TreeFrame)
    (h : l.Pairwise (fun a b => b.count < a.count)) : S.sort l = l := by
  have hperm := S.perm l
  have hcounts : (S.sort l).map TreeFrame.count = l.map TreeFrame.count := by
    haveI : IsAntisymm Nat (fun a b => b ≤ a) := ⟨fun _ _ h1 h2 => Nat.le_antisymm h2 h1⟩
    apply @List.eq_of_perm_of_sorted _ (fun a b : Nat => b ≤ a) _ _ _ (hperm.map _)
    · rw [List.Sorted, List.pairwise_map]
      exact (S.sorted l).imp (fun {a b} hab => by simpa [TreeFrame.gt] using hab)
    · rw [List.Sorted, List.pairwise_map]
      exact h.imp (fun {a b} hab => Nat.le_of_lt hab)
  have hnodup : (l.map TreeFrame.count).Nodup := by
    rw [List.Nodup, List.pairwise_map]
    exact h.imp (fun {a b} hab => by omega)
  apply List.ext_getElem hperm.length_eq
  intro n h1 h2
  apply List.inj_on_of_nodup_map hnodup (hperm.mem_iff.mp (List.getElem_mem h1))
    (List.getElem_mem h2)
  have e1 : ((S.sort l).map TreeFrame.count)[n]? = (l.map TreeFrame.count)[n]? := by
    rw [hcounts]
  simpa [List.getElem?_map, List.getElem?_eq_getElem h1, List.getElem?_eq_getElem h2] using e1

/-! ### Call tree: printing -/

/-- Printing a list of siblings follows their pre-order listing, given that
printing each of them does. -/
theorem TreeFrame.printChildren_preorder (symbolicate : Nat → String) (l : List TreeFrame)
    (hl : ∀ x ∈ l, ∀ d, TreeFrame.print_tree_with_indentation symbolicate (2 * d) x
      = (TreeFrame.preorder d x).map (fun p => printLine symbolicate (2 * p.1) p.2)) :
    ∀ d, TreeFrame.printChildren symbolicate (2 * d) l
      = (TreeFrame.preorderList d l).map (fun p => printLine symbolicate (2 * p.1) p.2) := by
  induction l with
  | nil => intro d; simp [TreeFrame.printChildren, TreeFrame.preorderList]
  | cons x xs ih =>
    intro d
    rw [TreeFrame.printChildren, TreeFrame.preorderList, List.map_append,
      hl x (List.mem_cons_self _ _) d,
      ih (fun y hy => hl y (List.mem_cons_of_mem _ hy)) d]

/-- Printing a tree at indentation `2 * d` prints its nodes in pre-order, each at
twice its depth. -/
theorem TreeFrame.print_preorder (symbolicate : Nat → String) (t : TreeFrame) :
    ∀ d, TreeFrame.print_tree_with_indentation symbolicate (2 * d) t
      = (TreeFrame.preorder d t).map (fun p => printLine symbolicate (2 * p.1) p.2) := by
  induction t using TreeFrame.induction_on with
  | h a c ch ih =>
    intro d
    rw [TreeFrame.print_tree_with_indentation, TreeFrame.preorder, List.map_cons]
    have h2 : 2 * d + 2 = 2 * (d + 1) := by omega
    rw [h2, TreeFrame.printChildren_preorder symbolicate ch ih (d + 1)]

/-- The pre-order listing of a list of siblings lists exactly their nodes. -/
theorem TreeFrame.preorderList_nodes (l : List TreeFrame)
    (hl : ∀ x ∈ l, ∀ d, (TreeFrame.preorder d x).map Prod.snd = TreeFrame.nodes x) :
    ∀ d, (TreeFrame.preorderList d l).map Prod.snd = TreeFrame.nodesList l := by
  induction l with
  | nil => intro d; simp [TreeFrame.preorderList, TreeFrame.nodesList]
  | cons x xs ih =>
    intro d
    rw [TreeFrame.preorderList, TreeFrame.nodesList, List.map_append,
      hl x (List.mem_cons_self _ _) d,
      ih (fun y hy => hl y (List.mem_cons_of_mem _ hy)) d]

/-- The pre-order listing of a tree lists exactly its nodes. -/
theorem TreeFrame.preorder_nodes (t : TreeFrame) :
    ∀ d, (TreeFrame.preorder d t).map Prod.snd = TreeFrame.nodes t := by
  induction t using TreeFrame.induction_on with
  | h a c ch ih =>
    intro d
    rw [TreeFrame.preorder, TreeFrame.nodes, List.map_cons,
      TreeFrame.preorderList_nodes ch ih (d + 1)]

/-- The tree of scenario S1 before sorting. -/
theorem Thread.buildTree_samplesS1 :
    Thread.buildTree samplesS1 = TreeFrame.mk 0 0
      [TreeFrame.mk 0xA 4 [TreeFrame.mk 0xB 3 [TreeFrame.mk 0xC 2 [], TreeFrame.mk 0xD 1 []],
        TreeFrame.mk 0xE 1 []]] := rfl

/-- The tree of scenario S1 has no ties and is built in sorted order: every
admissible `std::sort` leaves it as it is. -/
theorem Thread.sort_samplesS1 (S : StdSort) :
    (Thread.buildTree samplesS1).sort S = Thread.buildTree samplesS1 := by
  rw [Thread.buildTree_samplesS1]
  have e0 : S.sort [] = [] := S.sort_eq_of_strict [] (by simp)
  have e1 : S.sort [TreeFrame.mk 0xC 2 [], TreeFrame.mk 0xD 1 []]
      = [TreeFrame.mk 0xC 2 [], TreeFrame.mk 0xD 1 []] :=
    S.sort_eq_of_strict _ (by simp [TreeFrame.count])
  have e2 : S.sort [TreeFrame.mk 0xB 3 [TreeFrame.mk 0xC 2 [], TreeFrame.mk 0xD 1 []],
        TreeFrame.mk 0xE 1 []]
      = [TreeFrame.mk 0xB 3 [TreeFrame.mk 0xC 2 [], TreeFrame.mk 0xD 1 []],
        TreeFrame.mk 0xE 1 []] :=
    S.sort_eq_of_strict _ (by simp [TreeFrame.count])
  have e3 : S.sort [TreeFrame.mk 0xA 4
        [TreeFrame.mk 0xB 3 [TreeFrame.mk 0xC 2 [], TreeFrame.mk 0xD 1 []],
          TreeFrame.mk 0xE 1 []]]
      = [TreeFrame.mk 0xA 4
        [TreeFrame.mk 0xB 3 [TreeFrame.mk 0xC 2 [], TreeFrame.mk 0xD 1 []],
          TreeFrame.mk 0xE 1 []]] :=
    S.sort_eq_of_strict _ (by simp)
  simp only [TreeFrame.sort_mk, e0, e1, e2, e3, List.map_cons, List.map_nil]

/-- A printed line with its constant parts evaluated. -/
theorem printLine_eq (symbolicate : Nat → String) (indentation : Nat) (t : TreeFrame)
    (pre post : String)
    (h1 : String.mk (List.replicate indentation ' ') ++ toString t.count ++ "  " = pre)
    (h2 : " (" ++ fmtHexAlt t.address ++ ")\n" = post) :
    printLine symbolicate indentation t = pre ++ symbolicate t.address ++ post := by
  subst h1 h2
  simp [printLine, String.append_assoc]

/-- C10: printing.  For every call tree `root` (sorted or not), the root's
`print_tree_with_indentation(2)` prints nothing for the root and one line per other
node, in depth-first pre-order; the line of a node at depth `d` (the root's children
have depth 1) is `2 * d` spaces, the count, two spaces, the symbolicated address and
the address in hexadecimal.  `Thread::print_tree` prints exactly these lines for the
sorted tree of the samples, between the thread header and an empty line.  For the
samples of scenario S1 the lines are `4 A`, `3 B`, `2 C`, `1 D`, `1 E` at
indentations 2, 4, 6, 6, 4, whatever `std::sort` does with equal elements. -/
theorem print_tree_preorder (symbolicate : Nat → String) :
    (∀ root : TreeFrame,
      RootTreeFrame.print_tree_with_indentation symbolicate 2 root
        = (TreeFrame.preorderList 1 root.children).map (fun p =>
            String.mk (List.replicate (2 * p.1) ' ') ++ toString p.2.count ++ "  "
              ++ symbolicate p.2.address ++ " (" ++ fmtHexAlt p.2.address ++ ")\n")
      ∧ (TreeFrame.preorderList 1 root.children).map Prod.snd
          = TreeFrame.nodesList root.children)
    ∧ (∀ (S : StdSort) (lwpid : Nat) (samples : List (List Nat)),
      Thread.print_tree S symbolicate lwpid samples
        = ["  Thread " ++ fmtHexAlt (lwpid % UINT) ++ ":\n"]
          ++ (TreeFrame.preorderList 1 ((Thread.buildTree samples).sort S).children).map
              (fun p => String.mk (List.replicate (2 * p.1) ' ') ++ toString p.2.count ++ "  "
                ++ symbolicate p.2.address ++ " (" ++ fmtHexAlt p.2.address ++ ")\n")
          ++ ["\n"])
    ∧ (∀ (S : StdSort),
      Thread.print_tree S symbolicate 0x18a samplesS1
        = ["  Thread 0x18a:\n",
           "  4  " ++ symbolicate 0xA ++ " (0xa)\n",
           "    3  " ++ symbolicate 0xB ++ " (0xb)\n",
           "      2  " ++ symbolicate 0xC ++ " (0xc)\n",
           "      1  " ++ symbolicate 0xD ++ " (0xd)\n",
           "    1  " ++ symbolicate 0xE ++ " (0xe)\n",
           "\n"]) := by
  have hroot : ∀ root : TreeFrame,
      RootTreeFrame.print_tree_with_indentation symbolicate 2 root
        = (TreeFrame.preorderList 1 root.children).map (fun p =>
            String.mk (List.replicate (2 * p.1) ' ') ++ toString p.2.count ++ "  "
              ++ symbolicate p.2.address ++ " (" ++ fmtHexAlt p.2.address ++ ")\n") := by
    intro root
    exact TreeFrame.printChildren_preorder symbolicate root.children
      (fun x _ => TreeFrame.print_preorder symbolicate x) 1
  have hthread : ∀ (S : StdSort) (lwpid : Nat) (samples : List (List Nat)),
      Thread.print_tree S symbolicate lwpid samples
        = ["  Thread " ++ fmtHexAlt (lwpid % UINT) ++ ":\n"]
          ++ (TreeFrame.preorderList 1 ((Thread.buildTree samples).sort S).children).map
              (fun p => String.mk (List.replicate (2 * p.1) ' ') ++ toString p.2.count ++ "  "
                ++ symbolicate p.2.address ++ " (" ++ fmtHexAlt p.2.address ++ ")\n")
          ++ ["\n"] := by
    intro S lwpid samples
    rw [Thread.print_tree, hroot]
  refine ⟨fun root => ⟨hroot root, ?_⟩, hthread, ?_⟩
  · exact TreeFrame.preorderList_nodes root.children
      (fun x _ => TreeFrame.preorder_nodes x) 1
  · intro S
    have hbuild := Thread.buildTree_samplesS1
    have hsorted := Thread.sort_samplesS1 S
    rw [Thread.print_tree, hsorted, hbuild]
    simp only [RootTreeFrame.print_tree_with_indentation, TreeFrame.children,
      TreeFrame.printChildren, TreeFrame.print_tree_with_indentation, List.append_nil,
      List.cons_append, List.nil_append]
    rw [printLine_eq symbolicate 2 (TreeFrame.mk 0xA 4 _) "  4  " " (0xa)\n" (by decide)
        (by decide),
      printLine_eq symbolicate (2 + 2) (TreeFrame.mk 0xB 3 _) "    3  " " (0xb)\n" (by decide)
        (by decide),
      printLine_eq symbolicate (2 + 2 + 2) (TreeFrame.mk 0xC 2 _) "      2  " " (0xc)\n"
        (by decide) (by decide),
      printLine_eq symbolicate (2 + 2 + 2) (TreeFrame.mk 0xD 1 _) "      1  " " (0xd)\n"
        (by decide) (by decide),
      printLine_eq symbolicate (2 + 2) (TreeFrame.mk 0xE 1 _) "    1  " " (0xe)\n" (by decide)
        (by decide)]
    have hx : "  Thread " ++ fmtHexAlt (0x18a % UINT) ++ ":\n" = "  Thread 0x18a:\n" := by decide
    rw [hx]
    rfl

/-- Witness for `TreeFrame.sort_children_nonincreasing`: in the sorted tree of
scenario S1 the node `A` has the children `B` (count 3) and `E` (count 1), in this
order. -/
theorem TreeFrame.sort_children_nonincreasing_witness :
    TreeFrame.mk 0xA 4 [TreeFrame.mk 0xB 3 [TreeFrame.mk 0xC 2 [], TreeFrame.mk 0xD 1 []],
        TreeFrame.mk 0xE 1 []]
      ∈ TreeFrame.nodes ((Thread.buildTree samplesS1).sort stableSort)
    ∧ (TreeFrame.mk 0xE 1 []).count
      ≤ (TreeFrame.mk 0xB 3 [TreeFrame.mk 0xC 2 [], TreeFrame.mk 0xD 1 []]).count :=
  have hmem : TreeFrame.mk 0xA 4
      [TreeFrame.mk 0xB 3 [TreeFrame.mk 0xC 2 [], TreeFrame.mk 0xD 1 []], TreeFrame.mk 0xE 1 []]
      ∈ TreeFrame.nodes ((Thread.buildTree samplesS1).sort stableSort) := by
    rw [Thread.sort_samplesS1, Thread.buildTree_samplesS1]
    simp [TreeFrame.nodes, TreeFrame.nodesList]
  ⟨hmem, TreeFrame.sort_children_nonincreasing stableSort (Thread.buildTree samplesS1) _ hmem 0
    (by decide)⟩

/-! ### Call tree: ties -/

/-- Every node of a sorted tree is the sorted form of a node of the tree. -/
theorem TreeFrame.nodes_sort (S : StdSort) (t : TreeFrame) :
    ∀ n ∈ TreeFrame.nodes (t.sort S), ∃ m ∈ TreeFrame.nodes t, n = m.sort S := by
  induction t using TreeFrame.induction_on with
  | h a c ch ih =>
    intro n hn
    rw [TreeFrame.mem_nodes] at hn
    rcases hn with rfl | ⟨x, hx, hnx⟩
    · exact ⟨_, (TreeFrame.mem_nodes _ _).mpr (Or.inl rfl), rfl⟩
    · rw [TreeFrame.children_sort] at hx
      obtain ⟨y, hy, rfl⟩ := List.mem_map.mp hx
      have hych : y ∈ ch := (S.perm ch).mem_iff.mp hy
      obtain ⟨m, hm, rfl⟩ := ih y hych n hnx
      exact ⟨m, (TreeFrame.mem_nodes _ _).mpr (Or.inr ⟨y, hych, hm⟩), rfl⟩

/-! ### `Gnu.sort` returns a permutation in non-increasing order -/

namespace Gnu

/-- Writing back the element read at an index changes nothing. -/
theorem set_getD_self {α : Type} [Inhabited α] :
    ∀ (l : List α) (i : Nat), i < l.length → l.set i (l.getD i default) = l
  | [], _, h => absurd h (Nat.not_lt_zero _)
  | _ :: _, 0, _ => rfl
  | a :: t, i + 1, h => by
    have ih := set_getD_self t i (Nat.lt_of_succ_lt_succ h)
    simpa using ih

/-- Exchanging the element written at an index of the tail with the head. -/
theorem cons_set_perm {α : Type} (a v : α) :
    ∀ (t : List α) (i : Nat), i < t.length → (v :: t.set i a).Perm (a :: t.set i v)
  | [], _, h => absurd h (Nat.not_lt_zero _)
  | _ :: t, 0, _ => List.Perm.swap a v t
  | b :: t, i + 1, h =>
    (List.Perm.swap b v _).trans
      (((cons_set_perm a v t i (Nat.lt_of_succ_lt_succ h)).cons b).trans (List.Perm.swap a b _))

/-- Moving the element at `j` into the hole at `i` and writing `v` at `j` permutes
the vector that has `v` in the hole at `i`. -/
theorem set_set_perm {α : Type} [Inhabited α] (v : α) :
    ∀ (l : List α) (i j : Nat), i < l.length → j < l.length →
      ((l.set i (l.getD j default)).set j v).Perm (l.set i v)
  | [], _, _, h, _ => absurd h (Nat.not_lt_zero _)
  | a :: t, 0, 0, _, _ => by simp
  | a :: t, 0, j + 1, _, hj => by
    have hj2 : j < t.length := Nat.lt_of_succ_lt_succ hj
    have h := cons_set_perm (t.getD j default) v t j hj2
    rw [set_getD_self t j hj2] at h
    simpa using h.symm
  | a :: t, i + 1, 0, hi, _ => by
    simpa using cons_set_perm a v t i (Nat.lt_of_succ_lt_succ hi)
  | a :: t, i + 1, j + 1, hi, hj => by
    simpa using (set_set_perm v t i j (Nat.lt_of_succ_lt_succ hi)
      (Nat.lt_of_succ_lt_succ hj)).cons a

/-- Swapping two elements of the vector permutes it. -/
theorem iter_swap_perm {α : Type} [Inhabited α] (l : List α) (i j : Nat) (hi : i < l.length)
    (hj : j < l.length) : (iter_swap l i j).Perm l := by
  have h := set_set_perm (l.getD i default) l i j hi hj
  rwa [set_getD_self l i hi] at h

/-- Moving the median to the front permutes the vector. -/
theorem move_median_to_first_perm {α : Type} [Inhabited α] (comp : α → α → Bool) (l : List α)
    (result a b c : Nat) (hr : result < l.length) (ha : a < l.length) (hb : b < l.length)
    (hc : c < l.length) : (move_median_to_first comp l result a b c).Perm l := by
  unfold move_median_to_first
  split_ifs <;> apply iter_swap_perm <;> assumption

/-- The upward scan of the partition advances by at most its fuel. -/
theorem scanUp_le {α : Type} [Inhabited α] (comp : α → α → Bool) (l : List α) (pivot : Nat) :
    ∀ fuel first, scanUp comp l pivot fuel first ≤ first + fuel
  | 0, first => Nat.le_refl _
  | fuel + 1, first => by
    rw [scanUp]
    split_ifs
    · have := scanUp_le comp l pivot fuel (first + 1)
      omega
    · omega

/-- The downward scan of the partition never moves up. -/
theorem scanDown_le {α : Type} [Inhabited α] (comp : α → α → Bool) (l : List α) (pivot : Nat) :
    ∀ last, scanDown comp l pivot last ≤ last
  | 0 => Nat.le_refl _
  | last + 1 => by
    rw [scanDown]
    split_ifs
    · have := scanDown_le comp l pivot last
      omega
    · omega

/-- The partition permutes the vector and returns an iterator into it. -/
theorem unguarded_partition_perm {α : Type} [Inhabited α] (comp : α → α → Bool) (pivot : Nat) :
    ∀ (fuel : Nat) (l : List α) (first last : Nat), first ≤ l.length → last ≤ l.length →
      (unguarded_partition comp pivot fuel l first last).1.Perm l
        ∧ (unguarded_partition comp pivot fuel l first last).2 ≤ l.length
  | 0, l, first, last, hf, _ => ⟨List.Perm.refl _, hf⟩
  | fuel + 1, l, first, last, hf, hl => by
    have h1 := scanUp_le comp l pivot (l.length - first) first
    have h2 := scanDown_le comp l pivot (last - 1)
    rw [unguarded_partition]
    split_ifs with hlt
    rotate_left
    · exact ⟨List.Perm.refl _, by omega⟩
    · have hlt2 : scanUp comp l pivot (l.length - first) first
          < scanDown comp l pivot (last - 1) := by omega
      have hp := iter_swap_perm l (scanUp comp l pivot (l.length - first) first)
        (scanDown comp l pivot (last - 1)) (by omega) (by omega)
      have ih := unguarded_partition_perm comp pivot fuel
        (iter_swap l (scanUp comp l pivot (l.length - first) first)
          (scanDown comp l pivot (last - 1)))
        (scanUp comp l pivot (l.length - first) first + 1)
        (scanDown comp l pivot (last - 1)) (by rw [hp.length_eq]; omega)
        (by rw [hp.length_eq]; omega)
      exact ⟨ih.1.trans hp, Nat.le_trans ih.2 (Nat.le_of_eq hp.length_eq)⟩

/-- The partition around the median of three permutes the vector and returns an
iterator into it. -/
theorem unguarded_partition_pivot_perm {α : Type} [Inhabited α] (comp : α → α → Bool)
    (l : List α) (first last : Nat) (h : first + 1 < last) (hl : last ≤ l.length) :
    (unguarded_partition_pivot comp l first last).1.Perm l
      ∧ (unguarded_partition_pivot comp l first last).2 ≤ l.length := by
  have hm := move_median_to_first_perm comp l first (first + 1) (first + (last - first) / 2)
    (last - 1) (by omega) (by omega) (by omega) (by omega)
  have hp := unguarded_partition_perm comp first
    (move_median_to_first comp l first (first + 1) (first + (last - first) / 2) (last - 1)).length
    (move_median_to_first comp l first (first + 1) (first + (last - first) / 2) (last - 1))
    (first + 1) last (by rw [hm.length_eq]; omega) (by rw [hm.length_eq]; omega)
  unfold unguarded_partition_pivot
  exact ⟨hp.1.trans hm, Nat.le_trans hp.2 (Nat.le_of_eq hm.length_eq)⟩

/-- Pushing `value` up from the hole leaves a permutation of the vector with `value`
in the hole. -/
theorem push_heap_perm {α : Type} [Inhabited α] (comp : α → α → Bool) (first topIndex : Nat)
    (value : α) :
    ∀ (fuel : Nat) (l : List α) (holeIndex : Nat), first + holeIndex < l.length →
      (push_heap comp first topIndex value fuel l holeIndex).Perm (l.set (first + holeIndex) value)
  | 0, l, holeIndex, _ => List.Perm.refl _
  | fuel + 1, l, holeIndex, h => by
    rw [push_heap]
    split_ifs with hc
    · have ih := push_heap_perm comp first topIndex value fuel
        (l.set (first + holeIndex) (l.getD (first + (holeIndex - 1) / 2) default))
        ((holeIndex - 1) / 2) (by rw [List.length_set]; omega)
      exact ih.trans (set_set_perm value l (first + holeIndex) (first + (holeIndex - 1) / 2) h
        (by omega))
    · exact List.Perm.refl _

/-- The sift-down loop keeps, up to order, the vector with `value` in the hole, and
keeps the hole inside the heap. -/
theorem adjustHeapLoop_perm {α : Type} [Inhabited α] (comp : α → α → Bool) (first len : Nat)
    (value : α) :
    ∀ (fuel : Nat) (l : List α) (holeIndex secondChild : Nat), first + len ≤ l.length →
      holeIndex < len →
      ((adjustHeapLoop comp first len fuel l holeIndex secondChild).1.set
          (first + (adjustHeapLoop comp first len fuel l holeIndex secondChild).2.1) value).Perm
        (l.set (first + holeIndex) value)
      ∧ (adjustHeapLoop comp first len fuel l holeIndex secondChild).2.1 < len
  | 0, l, holeIndex, secondChild, _, hh => ⟨List.Perm.refl _, hh⟩
  | fuel + 1, l, holeIndex, secondChild, hl, hh => by
    rw [adjustHeapLoop]
    split_ifs with hc
    · simp only []
      split_ifs with hcmp
      · have ih := adjustHeapLoop_perm comp first len value fuel
          (l.set (first + holeIndex) (l.getD (first + (2 * (secondChild + 1) - 1)) default))
          (2 * (secondChild + 1) - 1) (2 * (secondChild + 1) - 1)
          (by rw [List.length_set]; exact hl) (by omega)
        exact ⟨ih.1.trans (set_set_perm value l (first + holeIndex)
          (first + (2 * (secondChild + 1) - 1)) (by omega) (by omega)), ih.2⟩
      · have ih := adjustHeapLoop_perm comp first len value fuel
          (l.set (first + holeIndex) (l.getD (first + 2 * (secondChild + 1)) default))
          (2 * (secondChild + 1)) (2 * (secondChild + 1))
          (by rw [List.length_set]; exact hl) (by omega)
        exact ⟨ih.1.trans (set_set_perm value l (first + holeIndex)
          (first + 2 * (secondChild + 1)) (by omega) (by omega)), ih.2⟩
    · exact ⟨List.Perm.refl _, hh⟩

/-- Adjusting the heap leaves a permutation of the vector with `value` in the hole. -/
theorem adjust_heap_perm {α : Type} [Inhabited α] (comp : α → α → Bool) (l : List α)
    (first holeIndex len : Nat) (value : α) (hl : first + len ≤ l.length) (hh : holeIndex < len) :
    (adjust_heap comp l first holeIndex len value).Perm (l.set (first + holeIndex) value) := by
  have hloop := adjustHeapLoop_perm comp first len value len l holeIndex holeIndex hl hh
  have hlen : (adjustHeapLoop comp first len len l holeIndex holeIndex).1.length = l.length := by
    have := hloop.1.length_eq
    simpa using this
  unfold adjust_heap
  simp only []
  split_ifs with hc
  · have hsc : 2 * ((adjustHeapLoop comp first len len l holeIndex holeIndex).2.2 + 1) - 1
        < len := by omega
    refine (push_heap_perm comp first holeIndex value len _ _ ?_).trans ?_
    · rw [List.length_set, hlen]; omega
    · exact (set_set_perm value _ _ _ (by rw [hlen]; omega) (by rw [hlen]; omega)).trans hloop.1
  · exact (push_heap_perm comp first holeIndex value len _ _ (by rw [hlen]; omega)).trans hloop.1

/-- Popping the heap into `result` permutes the vector. -/
theorem pop_heap_perm {α : Type} [Inhabited α] (comp : α → α → Bool) (l : List α)
    (first last result : Nat) (hf : first < last) (hl : last ≤ l.length)
    (hr : result < l.length) : (pop_heap comp l first last result).Perm l := by
  unfold pop_heap
  simp only []
  refine (adjust_heap_perm comp _ first 0 (last - first) _ (by rw [List.length_set]; omega)
    (by omega)).trans ?_
  have h := set_set_perm (l.getD result default) l result first hr (by omega)
  rwa [set_getD_self l result hr] at h

/-- The loop of `__make_heap` permutes the vector. -/
theorem makeHeapLoop_perm {α : Type} [Inhabited α] (comp : α → α → Bool) (first len : Nat) :
    ∀ (parent : Nat) (l : List α), first + len ≤ l.length → parent < len →
      (makeHeapLoop comp first len parent l).Perm l
  | 0, l, hl, hp => by
    rw [makeHeapLoop]
    have h := adjust_heap_perm comp l first 0 len (l.getD first default) hl hp
    rwa [Nat.add_zero, set_getD_self l first (by omega)] at h
  | parent + 1, l, hl, hp => by
    rw [makeHeapLoop]
    have h := adjust_heap_perm comp l first (parent + 1) len
      (l.getD (first + (parent + 1)) default) hl hp
    rw [set_getD_self l _ (by omega)] at h
    exact (makeHeapLoop_perm comp first len parent _ (by rw [h.length_eq]; exact hl)
      (by omega)).trans h

/-- Making a heap permutes the vector. -/
theorem make_heap_perm {α : Type} [Inhabited α] (comp : α → α → Bool) (l : List α)
    (first last : Nat) (hl : last ≤ l.length) : (make_heap comp l first last).Perm l := by
  unfold make_heap
  split_ifs with h
  · exact List.Perm.refl _
  · exact makeHeapLoop_perm comp first (last - first) _ l (by omega) (by omega)

/-- Sorting a heap permutes the vector. -/
theorem sort_heap_perm {α : Type} [Inhabited α] (comp : α → α → Bool) (first : Nat) :
    ∀ (fuel : Nat) (l : List α) (last : Nat), last ≤ l.length →
      (sort_heap comp first fuel l last).Perm l
  | 0, l, last, _ => List.Perm.refl _
  | fuel + 1, l, last, hl => by
    rw [sort_heap]
    split_ifs with h
    · have hp := pop_heap_perm comp l first (last - 1) (last - 1) (by omega) (by omega)
        (by omega)
      exact (sort_heap_perm comp first fuel _ (last - 1) (by rw [hp.length_eq]; omega)).trans hp
    · exact List.Perm.refl _

/-- The loop of `__heap_select` permutes the vector. -/
theorem heapSelectLoop_perm {α : Type} [Inhabited α] (comp : α → α → Bool)
    (first middle last : Nat) (hfm : first < middle) :
    ∀ (fuel : Nat) (l : List α) (i : Nat), middle ≤ l.length → last ≤ l.length →
      (heapSelectLoop comp first middle last fuel l i).Perm l
  | 0, l, i, _, _ => List.Perm.refl _
  | fuel + 1, l, i, hm, hl => by
    rw [heapSelectLoop]
    split_ifs with h1 h2
    · have hp := pop_heap_perm comp l first middle i hfm hm (by omega)
      exact (heapSelectLoop_perm comp first middle last hfm fuel _ (i + 1)
        (by rw [hp.length_eq]; exact hm) (by rw [hp.length_eq]; exact hl)).trans hp
    · exact heapSelectLoop_perm comp first middle last hfm fuel l (i + 1) hm hl
    · exact List.Perm.refl _

/-- The heap sort of a range permutes the vector. -/
theorem partial_sort_perm {α : Type} [Inhabited α] (comp : α → α → Bool) (l : List α)
    (first middle last : Nat) (hfm : first < middle) (hml : middle ≤ last)
    (hl : last ≤ l.length) : (partial_sort comp l first middle last).Perm l := by
  have hmk := make_heap_perm comp l first middle (by omega)
  have hsel : (heap_select comp l first middle last).Perm l := by
    unfold heap_select
    exact (heapSelectLoop_perm comp first middle last hfm _ _ middle
      (by rw [hmk.length_eq]; omega) (by rw [hmk.length_eq]; omega)).trans hmk
  unfold partial_sort
  exact (sort_heap_perm comp first _ _ middle (by rw [hsel.length_eq]; omega)).trans hsel

/-- The introsort loop permutes the vector. -/
theorem introsort_loop_perm {α : Type} [Inhabited α] (comp : α → α → Bool) :
    ∀ (depth_limit : Nat) (l : List α) (first last : Nat), last ≤ l.length →
      (introsort_loop comp depth_limit l first last).Perm l
  | 0, l, first, last, hl => by
    rw [introsort_loop]
    split_ifs with h
    · exact partial_sort_perm comp l first last last (by unfold S_threshold at h; omega)
        (Nat.le_refl _) hl
    · exact List.Perm.refl _
  | depth_limit + 1, l, first, last, hl => by
    rw [introsort_loop]
    split_ifs with h
    · simp only []
      have hp := unguarded_partition_pivot_perm comp l first last
        (by unfold S_threshold at h; omega) hl
      have h1 := introsort_loop_perm comp depth_limit
        (unguarded_partition_pivot comp l first last).1
        (unguarded_partition_pivot comp l first last).2 last (by rw [hp.1.length_eq]; exact hl)
      have h2 := introsort_loop_perm comp depth_limit
        (introsort_loop comp depth_limit (unguarded_partition_pivot comp l first last).1
          (unguarded_partition_pivot comp l first last).2 last)
        first (unguarded_partition_pivot comp l first last).2
        (by rw [h1.length_eq, hp.1.length_eq]; exact hp.2)
      exact h2.trans (h1.trans hp.1)
    · exact List.Perm.refl _

/-- The linear insertion adds `val` to the range, up to order. -/
theorem linearInsertRev_perm {α : Type} (comp : α → α → Bool) (val : α) :
    ∀ rs : List α, (linearInsertRev comp val rs).Perm (val :: rs)
  | [] => List.Perm.refl _
  | next :: rest => by
    rw [linearInsertRev]
    split_ifs
    · exact ((linearInsertRev_perm comp val rest).cons next).trans (List.Perm.swap val next rest)
    · exact List.Perm.refl _

/-- The unguarded linear insertion adds `val` to the range, up to order. -/
theorem unguarded_linear_insert_perm {α : Type} (comp : α → α → Bool) (front : List α)
    (val : α) : (unguarded_linear_insert comp front val).Perm (front ++ [val]) := by
  unfold unguarded_linear_insert
  refine (List.reverse_perm _).trans ((linearInsertRev_perm comp val _).trans ?_)
  exact ((List.reverse_perm front).cons val).trans (List.perm_append_singleton val front).symm

/-- One step of the insertion sort adds `val` to the range, up to order. -/
theorem insertionStep_perm {α : Type} (comp : α → α → Bool) (front : List α) (val : α) :
    (insertionStep comp front val).Perm (front ++ [val]) := by
  cases front with
  | nil => exact List.Perm.refl _
  | cons first rest =>
    rw [insertionStep]
    split_ifs
    · exact (List.perm_append_singleton val (first :: rest)).symm
    · exact unguarded_linear_insert_perm comp _ val

/-- A left fold whose steps append one element up to order appends the whole list up
to order. -/
theorem foldl_perm_append {α : Type} (step : List α → α → List α)
    (hstep : ∀ front val, (step front val).Perm (front ++ [val])) :
    ∀ (rest front : List α), (rest.foldl step front).Perm (front ++ rest)
  | [], front => by simp
  | x :: rest, front => by
    rw [List.foldl_cons]
    refine (foldl_perm_append step hstep rest _).trans ?_
    have := (hstep front x).append_right rest
    simpa using this

/-- The insertion sort permutes the vector. -/
theorem insertion_sort_perm {α : Type} (comp : α → α → Bool) :
    ∀ l : List α, (insertion_sort comp l).Perm l
  | [] => List.Perm.refl _
  | first :: rest => foldl_perm_append _ (insertionStep_perm comp) rest [first]

/-- The final insertion sort permutes the vector. -/
theorem final_insertion_sort_perm {α : Type} (comp : α → α → Bool) (l : List α) :
    (final_insertion_sort comp l).Perm l := by
  unfold final_insertion_sort
  split_ifs
  · refine (foldl_perm_append _ (unguarded_linear_insert_perm comp) _ _).trans ?_
    have := (insertion_sort_perm comp (l.take S_threshold)).append_right (l.drop S_threshold)
    rwa [List.take_append_drop] at this
  · exact insertion_sort_perm comp l

/-- The vector `std::sort` leaves is a permutation of the vector it was given. -/
theorem sort_perm {α : Type} [Inhabited α] (comp : α → α → Bool) (l : List α) :
    (sort comp l).Perm l := by
  unfold sort
  split_ifs
  · exact List.Perm.refl _
  · exact (final_insertion_sort_perm comp _).trans
      (introsort_loop_perm comp _ l 0 l.length (Nat.le_refl _))

/-- The linear insertion into a sorted range (read from its right end) leaves a
sorted range. -/
theorem linearInsertRev_sorted {α : Type} (comp : α → α → Bool) (key : α → Nat)
    (hkey : ∀ a b, comp a b = decide (key b < key a)) (val : α) :
    ∀ rs : List α, rs.Pairwise (fun a b => comp a b = false) →
      (linearInsertRev comp val rs).Pairwise (fun a b => comp a b = false)
  | [], _ => List.pairwise_singleton _ _
  | next :: rest, h => by
    rw [linearInsertRev]
    rw [List.pairwise_cons] at h
    split_ifs with hc
    · rw [List.pairwise_cons]
      refine ⟨?_, linearInsertRev_sorted comp key hkey val rest h.2⟩
      intro x hx
      rcases List.mem_cons.mp ((linearInsertRev_perm comp val rest).mem_iff.mp hx) with rfl | hx
      · rw [hkey] at hc ⊢
        simp only [decide_eq_true_eq, decide_eq_false_iff_not] at hc ⊢
        omega
      · exact h.1 x hx
    · rw [List.pairwise_cons]
      refine ⟨?_, List.pairwise_cons.mpr h⟩
      intro x hx
      rcases List.mem_cons.mp hx with rfl | hx
      · simpa using hc
      · have h1 := h.1 x hx
        rw [hkey] at hc h1 ⊢
        simp only [decide_eq_true_eq, decide_eq_false_iff_not] at hc h1 ⊢
        omega

/-- The unguarded linear insertion into a sorted range leaves a sorted range. -/
theorem unguarded_linear_insert_sorted {α : Type} (comp : α → α → Bool) (key : α → Nat)
    (hkey : ∀ a b, comp a b = decide (key b < key a)) (front : List α) (val : α)
    (h : front.Pairwise (fun a b => comp b a = false)) :
    (unguarded_linear_insert comp front val).Pairwise (fun a b => comp b a = false) := by
  unfold unguarded_linear_insert
  rw [List.pairwise_reverse]
  exact linearInsertRev_sorted comp key hkey val _ (List.pairwise_reverse.mpr h)

/-- One step of the insertion sort keeps the range sorted. -/
theorem insertionStep_sorted {α : Type} (comp : α → α → Bool) (key : α → Nat)
    (hkey : ∀ a b, comp a b = decide (key b < key a)) (front : List α) (val : α)
    (h : front.Pairwise (fun a b => comp b a = false)) :
    (insertionStep comp front val).Pairwise (fun a b => comp b a = false) := by
  cases front with
  | nil => exact List.pairwise_singleton _ _
  | cons first rest =>
    rw [insertionStep]
    split_ifs with hc
    · rw [List.pairwise_cons]
      refine ⟨?_, h⟩
      intro x hx
      rw [List.pairwise_cons] at h
      rcases List.mem_cons.mp hx with rfl | hx
      · rw [hkey] at hc ⊢
        simp only [decide_eq_true_eq, decide_eq_false_iff_not] at hc ⊢
        omega
      · have h1 := h.1 x hx
        rw [hkey] at hc h1 ⊢
        simp only [decide_eq_true_eq, decide_eq_false_iff_not] at hc h1 ⊢
        omega
    · exact unguarded_linear_insert_sorted comp key hkey _ val h

/-- A left fold keeps what each of its steps keeps. -/
theorem foldl_invariant {α β : Type} (P : β → Prop) (step : β → α → β)
    (hstep : ∀ b a, P b → P (step b a)) : ∀ (l : List α) (b : β), P b → P (l.foldl step b)
  | [], _, hb => hb
  | a :: l, b, hb => foldl_invariant P step hstep l (step b a) (hstep b a hb)

/-- The insertion sort leaves the vector sorted. -/
theorem insertion_sort_sorted {α : Type} (comp : α → α → Bool) (key : α → Nat)
    (hkey : ∀ a b, comp a b = decide (key b < key a)) :
    ∀ l : List α, (insertion_sort comp l).Pairwise (fun a b => comp b a = false)
  | [] => List.Pairwise.nil
  | first :: rest =>
    foldl_invariant (fun front => front.Pairwise (fun a b => comp b a = false))
      (insertionStep comp) (fun b a hb => insertionStep_sorted comp key hkey b a hb) rest [first]
      (List.pairwise_singleton _ _)

/-- The final insertion sort leaves the vector sorted, whatever the introsort loop
left. -/
theorem final_insertion_sort_sorted {α : Type} (comp : α → α → Bool) (key : α → Nat)
    (hkey : ∀ a b, comp a b = decide (key b < key a)) (l : List α) :
    (final_insertion_sort comp l).Pairwise (fun a b => comp b a = false) := by
  unfold final_insertion_sort
  split_ifs
  · exact foldl_invariant (fun front => front.Pairwise (fun a b => comp b a = false))
      (unguarded_linear_insert comp)
      (fun b a hb => unguarded_linear_insert_sorted comp key hkey b a hb) _ _
      (insertion_sort_sorted comp key hkey _)
  · exact insertion_sort_sorted comp key hkey l

/-- In the vector `std::sort` leaves no element is `comp`-before an element in front
of it, when `comp` compares a key with `>`. -/
theorem sort_sorted {α : Type} [Inhabited α] (comp : α → α → Bool) (key : α → Nat)
    (hkey : ∀ a b, comp a b = decide (key b < key a)) (l : List α) :
    (sort comp l).Pairwise (fun a b => comp b a = false) := by
  unfold sort
  split_ifs with h
  · rw [List.length_eq_zero.mp h]
    exact List.Pairwise.nil
  · exact final_insertion_sort_sorted comp key hkey _

/-- The linear insertion moves `val` only past elements of another key. -/
theorem linearInsertRev_filter {α : Type} (comp : α → α → Bool) (key : α → Nat)
    (hkey : ∀ a b, comp a b = decide (key b < key a)) (k : Nat) (val : α) :
    ∀ rs : List α, (linearInsertRev comp val rs).filter (fun x => decide (key x = k))
      = (val :: rs).filter (fun x => decide (key x = k))
  | [] => rfl
  | next :: rest => by
    rw [linearInsertRev]
    split_ifs with hc
    · rw [hkey] at hc
      simp only [decide_eq_true_eq] at hc
      rw [List.filter_cons, linearInsertRev_filter comp key hkey k val rest]
      by_cases hv : key val = k
      · have hn : ¬ key next = k := by omega
        simp [List.filter_cons, hv, hn]
      · simp [List.filter_cons, hv]
    · rfl

/-- The unguarded linear insertion keeps the elements of any one key in order, `val`
last among them. -/
theorem unguarded_linear_insert_filter {α : Type} (comp : α → α → Bool) (key : α → Nat)
    (hkey : ∀ a b, comp a b = decide (key b < key a)) (k : Nat) (front : List α) (val : α) :
    (unguarded_linear_insert comp front val).filter (fun x => decide (key x = k))
      = (front ++ [val]).filter (fun x => decide (key x = k)) := by
  unfold unguarded_linear_insert
  rw [List.filter_reverse, linearInsertRev_filter comp key hkey k val, ← List.filter_reverse]
  simp

/-- One step of the insertion sort on a sorted range keeps the elements of any one
key in order, `val` last among them. -/
theorem insertionStep_filter {α : Type} (comp : α → α → Bool) (key : α → Nat)
    (hkey : ∀ a b, comp a b = decide (key b < key a)) (k : Nat) (front : List α) (val : α)
    (h : front.Pairwise (fun a b => comp b a = false)) :
    (insertionStep comp front val).filter (fun x => decide (key x = k))
      = (front ++ [val]).filter (fun x => decide (key x = k)) := by
  cases front with
  | nil => rfl
  | cons first rest =>
    rw [insertionStep]
    split_ifs with hc
    · rw [hkey] at hc
      simp only [decide_eq_true_eq] at hc
      by_cases hv : key val = k
      · have hnone : (first :: rest).filter (fun x => decide (key x = k)) = [] := by
          rw [List.filter_eq_nil_iff]
          intro x hx
          rw [List.pairwise_cons] at h
          rcases List.mem_cons.mp hx with rfl | hx
          · simp only [decide_eq_true_eq]
            omega
          · have h1 := h.1 x hx
            rw [hkey] at h1
            simp only [decide_eq_false_iff_not, decide_eq_true_eq] at h1 ⊢
            omega
        rw [List.filter_append, hnone, List.filter_cons, hnone]
        simp [List.filter_cons, hv]
      · rw [List.filter_append, List.filter_cons]
        simp [List.filter_cons, hv]
    · exact unguarded_linear_insert_filter comp key hkey k _ val

/-- The insertion sort keeps the elements of any one key in their original order. -/
theorem insertion_sort_filter {α : Type} (comp : α → α → Bool) (key : α → Nat)
    (hkey : ∀ a b, comp a b = decide (key b < key a)) (k : Nat) :
    ∀ l : List α, (insertion_sort comp l).filter (fun x => decide (key x = k))
      = l.filter (fun x => decide (key x = k))
  | [] => rfl
  | first :: rest => by
    have hinv : ∀ (rest front : List α), front.Pairwise (fun a b => comp b a = false) →
        (rest.foldl (insertionStep comp) front).filter (fun x => decide (key x = k))
          = (front ++ rest).filter (fun x => decide (key x = k)) := by
      intro rest
      induction rest with
      | nil => intro front _; simp
      | cons x rest ih =>
        intro front hs
        rw [List.foldl_cons, ih _ (insertionStep_sorted comp key hkey front x hs),
          List.filter_append, insertionStep_filter comp key hkey k front x hs,
          ← List.filter_append]
        simp
    exact hinv rest [first] (List.pairwise_singleton _ _)

/-- On a vector of at most `_S_threshold` elements `std::sort` is the insertion
sort. -/
theorem sort_eq_insertion_sort {α : Type} [Inhabited α] (comp : α → α → Bool) (l : List α)
    (h : l.length ≤ S_threshold) : sort comp l = insertion_sort comp l := by
  unfold sort
  split_ifs with h0
  · rw [List.length_eq_zero.mp h0]
    rfl
  · have hloop : ∀ d, introsort_loop comp d l 0 l.length = l := by
      intro d
      cases d with
      | zero => rw [introsort_loop, if_neg (by omega)]
      | succ d => rw [introsort_loop, if_neg (by omega)]
    rw [hloop, final_insertion_sort, if_neg (by omega)]

/-- On a vector of at most `_S_threshold` elements `std::sort` keeps the elements of
any one key in their original order. -/
theorem sort_filter {α : Type} [Inhabited α] (comp : α → α → Bool) (key : α → Nat)
    (hkey : ∀ a b, comp a b = decide (key b < key a)) (k : Nat) (l : List α)
    (h : l.length ≤ S_threshold) :
    (sort comp l).filter (fun x => decide (key x = k)) = l.filter (fun x => decide (key x = k)) := by
  rw [sort_eq_insertion_sort comp l h, insertion_sort_filter comp key hkey k l]

end Gnu

/-- The `std::sort` of GNU libstdc++ on a vector of `TreeFrame` with
`std::greater<TreeFrame>`, as `TreeFrame::sort` calls it. -/
def gnuSort : StdSort where
  sort := Gnu.sort TreeFrame.gt
  perm := Gnu.sort_perm TreeFrame.gt
  sorted := Gnu.sort_sorted TreeFrame.gt TreeFrame.count (fun _ _ => rfl)

/-- C5 (amended): tie-break under the `std::sort` of GNU libstdc++.  Every node of
the sorted tree is the sorted form of a node of the tree, and when that node has at
most 16 children (`_S_threshold`), its children of any one count are in the order in
which that node's children were inserted.  For scenario S2 the root's children stay
in the order `X`, `Y`. -/
theorem TreeFrame.sort_ties_gnu (t : TreeFrame) :
    (∀ n ∈ TreeFrame.nodes (t.sort gnuSort), ∃ m ∈ TreeFrame.nodes t,
      n = m.sort gnuSort ∧ (m.children.length ≤ 16 → ∀ k : Nat,
        (n.children.filter (fun x => decide (x.count = k))).map TreeFrame.address
          = (m.children.filter (fun x => decide (x.count = k))).map TreeFrame.address))
    ∧ ((Thread.buildTree samplesS2).sort gnuSort).children.map TreeFrame.address = [1, 2] := by
  constructor
  · intro n hn
    obtain ⟨m, hm, rfl⟩ := TreeFrame.nodes_sort gnuSort t n hn
    refine ⟨m, hm, rfl, ?_⟩
    intro hlen k
    rw [TreeFrame.children_sort, List.filter_map, List.map_map]
    have hf : ((fun x => decide (x.count = k)) ∘ TreeFrame.sort gnuSort)
        = (fun x : TreeFrame => decide (x.count = k)) := by
      funext x
      simp [TreeFrame.count_sort]
    rw [hf, TreeFrame.address_comp_sort]
    show (List.filter _ (Gnu.sort TreeFrame.gt m.children)).map _ = _
    rw [Gnu.sort_filter TreeFrame.gt TreeFrame.count (fun _ _ => rfl) k m.children hlen]
  · have hbuild : Thread.buildTree samplesS2
        = TreeFrame.mk 0 0 [TreeFrame.mk 1 1 [], TreeFrame.mk 2 1 []] := rfl
    rw [hbuild, TreeFrame.children_sort, List.map_map, TreeFrame.address_comp_sort]
    rfl

/-- Witness for `TreeFrame.sort_ties_gnu`: the root of the sorted tree of scenario
S2 is the sorted form of a node with at most 16 children, and its two children of
count 1 are in the order `X`, `Y` in which they were inserted. -/
theorem TreeFrame.sort_ties_gnu_witness :
    TreeFrame.mk 0 0 [TreeFrame.mk 1 1 [], TreeFrame.mk 2 1 []]
      ∈ TreeFrame.nodes ((Thread.buildTree samplesS2).sort gnuSort)
    ∧ ∃ m ∈ TreeFrame.nodes (Thread.buildTree samplesS2),
        TreeFrame.mk 0 0 [TreeFrame.mk 1 1 [], TreeFrame.mk 2 1 []] = m.sort gnuSort
        ∧ m.children.length ≤ 16
        ∧ (((TreeFrame.mk 0 0 [TreeFrame.mk 1 1 [], TreeFrame.mk 2 1 []]).children.filter
              (fun x => decide (x.count = 1))).map TreeFrame.address = [1, 2])
        ∧ ∀ k : Nat,
          ((TreeFrame.mk 0 0 [TreeFrame.mk 1 1 [], TreeFrame.mk 2 1 []]).children.filter
              (fun x => decide (x.count = k))).map TreeFrame.address
            = (m.children.filter (fun x => decide (x.count = k))).map TreeFrame.address :=
  have hsort : (Thread.buildTree samplesS2).sort gnuSort
      = TreeFrame.mk 0 0 [TreeFrame.mk 1 1 [], TreeFrame.mk 2 1 []] := by
    have hbuild : Thread.buildTree samplesS2
        = TreeFrame.mk 0 0 [TreeFrame.mk 1 1 [], TreeFrame.mk 2 1 []] := rfl
    have e0 : gnuSort.sort [] = [] := rfl
    have e1 : gnuSort.sort [TreeFrame.mk 1 1 [], TreeFrame.mk 2 1 []]
        = [TreeFrame.mk 1 1 [], TreeFrame.mk 2 1 []] := rfl
    rw [hbuild]
    simp only [TreeFrame.sort_mk, e0, e1, List.map_cons, List.map_nil]
  have hmem : TreeFrame.mk 0 0 [TreeFrame.mk 1 1 [], TreeFrame.mk 2 1 []]
      ∈ TreeFrame.nodes ((Thread.buildTree samplesS2).sort gnuSort) := by
    rw [hsort]
    simp [TreeFrame.nodes, TreeFrame.nodesList]
  match (TreeFrame.sort_ties_gnu (Thread.buildTree samplesS2)).1 _ hmem with
  | ⟨m, hm, heq, h⟩ =>
    have hlen : m.children.length ≤ 16 := by
      have hc : (TreeFrame.mk 0 0 [TreeFrame.mk 1 1 [], TreeFrame.mk 2 1 []]).children.length
          = (m.sort gnuSort).children.length := congrArg (fun x => x.children.length) heq
      rw [TreeFrame.children_sort, List.length_map, (gnuSort.perm m.children).length_eq] at hc
      rw [← hc]
      decide
    ⟨hmem, m, hm, heq, hlen, rfl, h hlen⟩

/-- C5 (counterexample).  Seventeen samples `[1]`, ..., `[17]`, one each, give the
root the children `1`, ..., `17` in this order, all of count 1.  The `std::sort` of
GNU libstdc++ leaves them in the order `9, 17, 16, ..., 10, 1, 8, 7, ..., 2`: the
child inserted first is the tenth of the seventeen equals. -/
theorem TreeFrame.sort_ties_gnu_counterexample :
    (Thread.buildTree samplesTies).children.map TreeFrame.address
        = [1, 2, 3, 4, 5, 6, 7, 8, 9, 10, 11, 12, 13, 14, 15, 16, 17]
    ∧ (Thread.buildTree samplesTies).children.map TreeFrame.count = List.replicate 17 1
    ∧ ((Thread.buildTree samplesTies).sort gnuSort).children.map TreeFrame.address
        = [9, 17, 16, 15, 14, 13, 12, 11, 10, 1, 8, 7, 6, 5, 4, 3, 2] := by
  refine ⟨rfl, rfl, ?_⟩
  rw [TreeFrame.children_sort, List.map_map, TreeFrame.address_comp_sort]
  rfl

/-! ### Call tree: counts -/

/-- A path of at least one address only looks at the children of the node it
starts from. -/
theorem TreeFrame.find_cons (a : Nat) (p : List Nat) (t : TreeFrame) :
    t.find (a :: p) =
      match t.children.find? (fun child => decide (child.address = a)) with
      | none => none
      | some child => child.find p := by
  cases t with
  | mk a0 c ch => rfl

theorem TreeFrame.find_nil (t : TreeFrame) : t.find [] = some t := by
  cases t with
  | mk a0 c ch => rfl

/-- The children of a node after the rest of a sample was inserted below it. -/
theorem insertSample_children_cons (addr : Nat) (rest : List Nat) (t : TreeFrame) :
    (insertSample (addr :: rest) t).children =
      updateChild addr (fun child => insertSample rest (child.increment 1)) t.children := by
  cases t with
  | mk a c ch => rfl

/-- Inserting a sample below a node leaves the node's own address alone. -/
theorem insertSample_address (s : List Nat) (t : TreeFrame) :
    (insertSample s t).address = t.address := by
  cases t with
  | mk a c ch => cases s <;> rfl

/-- Inserting a sample below a node leaves the node's own count alone. -/
theorem insertSample_count (s : List Nat) (t : TreeFrame) :
    (insertSample s t).count = t.count := by
  cases t with
  | mk a c ch => cases s <;> rfl

theorem TreeFrame.increment_address (v : Nat) (t : TreeFrame) :
    (t.increment v).address = t.address := by
  cases t with
  | mk a c ch => rfl

theorem TreeFrame.increment_count (v : Nat) (t : TreeFrame) :
    (t.increment v).count = (t.count + v) % UINT := by
  cases t with
  | mk a c ch => rfl

theorem TreeFrame.increment_children (v : Nat) (t : TreeFrame) :
    (t.increment v).children = t.children := by
  cases t with
  | mk a c ch => rfl

/-- Lookup of another address is not affected by `updateChild`. -/
theorem find?_updateChild_ne (a b : Nat) (hab : b ≠ a) (f : TreeFrame → TreeFrame)
    (hf : ∀ x, (f x).address = x.address) : ∀ l : List TreeFrame,
    (updateChild a f l).find? (fun child => decide (child.address = b))
      = l.find? (fun child => decide (child.address = b)) := by
  intro l
  induction l with
  | nil =>
    have h : (f (TreeFrame.new a)).address ≠ b := by
      rw [hf]; exact fun h => hab h.symm
    simp [updateChild, List.find?, h]
  | cons c rest ih =>
    rw [updateChild]
    by_cases hc : c.address = a
    · rw [if_pos hc]
      have h1 : (f c).address ≠ b := by rw [hf, hc]; exact fun h => hab h.symm
      have h2 : c.address ≠ b := by rw [hc]; exact fun h => hab h.symm
      simp [List.find?, h1, h2]
    · rw [if_neg hc]
      by_cases hb : c.address = b
      · simp [List.find?, hb]
      · simp [List.find?, hb, ih]

/-- Lookup of the updated address finds the updated child. -/
theorem find?_updateChild_eq (a : Nat) (f : TreeFrame → TreeFrame)
    (hf : ∀ x, (f x).address = x.address) : ∀ l : List TreeFrame,
    (updateChild a f l).find? (fun child => decide (child.address = a))
      = some (f ((l.find? (fun child => decide (child.address = a))).getD (TreeFrame.new a))) := by
  intro l
  induction l with
  | nil =>
    have h : (f (TreeFrame.new a)).address = a := by rw [hf]; rfl
    simp [updateChild, List.find?, h]
  | cons c rest ih =>
    rw [updateChild]
    by_cases hc : c.address = a
    · rw [if_pos hc]
      have h1 : (f c).address = a := by rw [hf, hc]
      simp [List.find?, h1, hc]
    · rw [if_neg hc]
      simp [List.find?, hc, ih]

/-- The sum of the children's counts after `updateChild` with an update that adds
one to the count. -/
theorem sum_count_updateChild (a : Nat) (f : TreeFrame → TreeFrame)
    (hf : ∀ x, (f x).count = (x.count + 1) % UINT) : ∀ l : List TreeFrame,
    ((updateChild a f l).map TreeFrame.count).sum % UINT
        = ((l.map TreeFrame.count).sum + 1) % UINT
      ∧ ((updateChild a f l).map TreeFrame.count).sum ≤ (l.map TreeFrame.count).sum + 1 := by
  intro l
  induction l with
  | nil =>
    have h : (f (TreeFrame.new a)).count = 1 := by rw [hf]; rfl
    simp [updateChild, h]
  | cons c rest ih =>
    rw [updateChild]
    by_cases hc : c.address = a
    · rw [if_pos hc]
      simp only [List.map_cons, List.sum_cons, hf]
      have hU : UINT = 4294967296 := by decide
      rw [hU]
      omega
    · rw [if_neg hc]
      simp only [List.map_cons, List.sum_cons]
      have hU : UINT = 4294967296 := by decide
      rw [hU] at ih ⊢
      omega

/-- A non-empty path from a node whose count was incremented. -/
theorem TreeFrame.find_increment (v a : Nat) (q : List Nat) (t : TreeFrame) :
    (t.increment v).find (a :: q) = t.find (a :: q) := by
  rw [TreeFrame.find_cons, TreeFrame.find_cons, TreeFrame.increment_children]

/-- A non-empty path from a fresh node leads nowhere. -/
theorem TreeFrame.find_new (addr a : Nat) (q : List Nat) :
    (TreeFrame.new addr).find (a :: q) = none := rfl

/-- The update applied by `insertSample` keeps the address of the child. -/
theorem insertSample_increment_address (rest : List Nat) (x : TreeFrame) :
    (insertSample rest (x.increment 1)).address = x.address := by
  rw [insertSample_address, TreeFrame.increment_address]

/-- Nodes off the path of the inserted sample are not touched. -/
theorem find_insertSample_off_path : ∀ (s : List Nat) (t : TreeFrame) (p : List Nat),
    ¬ p <+: s → (insertSample s t).find p = t.find p := by
  intro s
  induction s with
  | nil => intro t p _; rfl
  | cons a rest ih =>
    intro t p hp
    cases p with
    | nil => exact absurd ⟨_, List.nil_append _⟩ hp
    | cons b q =>
      rw [TreeFrame.find_cons, TreeFrame.find_cons, insertSample_children_cons]
      by_cases hb : b = a
      · subst hb
        have hq : ¬ q <+: rest := fun h => hp ((List.prefix_cons_inj b).mpr h)
        rw [find?_updateChild_eq b _ (insertSample_increment_address rest)]
        simp only []
        rw [ih _ _ hq]
        cases q with
        | nil => exact absurd ⟨_, List.nil_append _⟩ hq
        | cons a2 q2 =>
          rw [TreeFrame.find_increment]
          cases hfind : t.children.find? (fun child => decide (child.address = b)) with
          | none => simp [TreeFrame.find_new]
          | some c => simp
      · rw [find?_updateChild_ne a b hb _ (insertSample_increment_address rest)]

/-- Nodes on the path of the inserted sample exist afterwards; their count grew by
one; the end of the path keeps its children, the other nodes on the path see the sum
of their children's counts grow by one. -/
theorem find_insertSample_on_path : ∀ (s : List Nat) (t : TreeFrame) (p : List Nat),
    p ≠ [] → p <+: s →
    ∃ n, (insertSample s t).find p = some n
      ∧ n.count = (optCount (t.find p) + 1) % UINT
      ∧ (p = s → n.children = optChildren (t.find p))
      ∧ (p ≠ s →
          (n.children.map TreeFrame.count).sum % UINT
              = (((optChildren (t.find p)).map TreeFrame.count).sum + 1) % UINT
          ∧ (n.children.map TreeFrame.count).sum
              ≤ ((optChildren (t.find p)).map TreeFrame.count).sum + 1) := by
  intro s
  induction s with
  | nil =>
    intro t p hp hpre
    exact absurd (List.prefix_nil.mp hpre) hp
  | cons a rest ih =>
    intro t p hp hpre
    cases p with
    | nil => exact absurd rfl hp
    | cons b q =>
      obtain ⟨hba, hq⟩ := List.cons_prefix_cons.mp hpre
      subst hba
      rw [TreeFrame.find_cons, insertSample_children_cons,
        find?_updateChild_eq b _ (insertSample_increment_address rest)]
      simp only []
      cases q with
      | nil =>
        -- the node is the child of `t` on the path
        refine ⟨_, TreeFrame.find_nil _, ?_, ?_, ?_⟩
        · rw [insertSample_count, TreeFrame.increment_count, TreeFrame.find_cons]
          cases hfind : t.children.find? (fun child => decide (child.address = b)) with
          | none => simp [optCount, TreeFrame.new, TreeFrame.count]
          | some c => simp [optCount, TreeFrame.find_nil]
        · intro hps
          have hrest : rest = [] := by simpa using hps.symm
          subst hrest
          rw [TreeFrame.find_cons]
          cases hfind : t.children.find? (fun child => decide (child.address = b)) with
          | none => rfl
          | some c =>
            simp [optChildren, insertSample, TreeFrame.increment_children, TreeFrame.find_nil]
        · intro hps
          cases rest with
          | nil => exact absurd rfl hps
          | cons a2 rest2 =>
            rw [insertSample_children_cons, TreeFrame.increment_children]
            have hsum := sum_count_updateChild a2
              (fun child => insertSample rest2 (child.increment 1))
              (fun x => by rw [insertSample_count, TreeFrame.increment_count])
            rw [TreeFrame.find_cons]
            cases hfind : t.children.find? (fun child => decide (child.address = b)) with
            | none =>
              simpa [optChildren, TreeFrame.new, TreeFrame.children] using hsum []
            | some c =>
              simpa [optChildren, TreeFrame.find_nil] using hsum c.children
      | cons a2 q2 =>
        have hold : (((t.children.find? (fun child => decide (child.address = b))).getD
            (TreeFrame.new b)).increment 1).find (a2 :: q2) = t.find (b :: a2 :: q2) := by
          rw [TreeFrame.find_increment, TreeFrame.find_cons b]
          cases hfind : t.children.find? (fun child => decide (child.address = b)) with
          | none => simp [TreeFrame.find_new]
          | some c => simp
        obtain ⟨n, hn, hcount, hend, hmid⟩ := ih
          (((t.children.find? (fun child => decide (child.address = b))).getD
            (TreeFrame.new b)).increment 1) (a2 :: q2) (by simp) hq
        rw [hold] at hcount hend hmid
        refine ⟨n, hn, hcount, ?_, ?_⟩
        · intro hps
          exact hend (by simpa using hps)
        · intro hps
          exact hmid (fun h => hps (by rw [h]))

/-- Appending a sample to the list inserts it into the tree built so far. -/
theorem Thread.buildTree_append (samples : List (List Nat)) (s : List Nat) :
    Thread.buildTree (samples ++ [s]) = insertSample s (Thread.buildTree samples) := by
  simp [Thread.buildTree, List.foldl_append]

/-- The root is never incremented. -/
theorem Thread.buildTree_root (samples : List (List Nat)) :
    (Thread.buildTree samples).count = 0 ∧ (Thread.buildTree samples).address = 0 := by
  induction samples using List.reverseRecOn with
  | nil => exact ⟨rfl, rfl⟩
  | append_singleton l s ih =>
    rw [Thread.buildTree_append, insertSample_count, insertSample_address]
    exact ih

/-- The count invariant modulo `UINT`, for sample lists of any length: at every path,
the count of the node there (0 when there is none) is congruent to the sum of its
children's counts plus the number of samples that are exactly this path; and that sum
is at most the number of samples. -/
theorem Thread.buildTree_count_mod (samples : List (List Nat)) :
    ∀ p : List Nat, p ≠ [] →
      optCount ((Thread.buildTree samples).find p)
          = (((optChildren ((Thread.buildTree samples).find p)).map TreeFrame.count).sum
              + samples.count p) % UINT
        ∧ ((optChildren ((Thread.buildTree samples).find p)).map TreeFrame.count).sum
              + samples.count p ≤ samples.length := by
  induction samples using List.reverseRecOn with
  | nil =>
    intro p hp
    cases p with
    | nil => exact absurd rfl hp
    | cons a q => exact ⟨rfl, Nat.le_refl _⟩
  | append_singleton l s ih =>
    intro p hp
    obtain ⟨ih1, ih2⟩ := ih p hp
    have hU : UINT = 4294967296 := by decide
    have hcnt : List.count p (l ++ [s]) = List.count p l + (if p = s then 1 else 0) := by
      rw [List.count_append]
      by_cases h : p = s
      · simp [h]
      · have hsp : ¬ s = p := fun h2 => h h2.symm
        simp [h, hsp, List.count_cons]
    rw [Thread.buildTree_append, hcnt, List.length_append, List.length_singleton]
    by_cases hpre : p <+: s
    · obtain ⟨n, hn, hcount, hend, hmid⟩ :=
        find_insertSample_on_path s (Thread.buildTree l) p hp hpre
      rw [hn]
      have hoc : optCount (some n) = n.count := rfl
      have hoch : optChildren (some n) = n.children := rfl
      rw [hoc, hoch, hcount]
      by_cases hps : p = s
      · rw [hend hps, if_pos hps, ih1, hU]
        rw [hU] at ih1
        omega
      · obtain ⟨hm1, hm2⟩ := hmid hps
        rw [if_neg hps, ih1]
        rw [hU] at hm1 ih1 ⊢
        omega
    · have hps : p ≠ s := fun h => hpre (h ▸ List.prefix_rfl)
      rw [find_insertSample_off_path s _ p hpre, if_neg hps]
      exact ⟨ih1, by omega⟩

/-! ### Call tree: one child per address -/

/-- The addresses of the children after `updateChild`: unchanged when the address is
already there, otherwise the new address is appended. -/
theorem map_address_updateChild (a : Nat) (f : TreeFrame → TreeFrame)
    (hf : ∀ x, (f x).address = x.address) : ∀ l : List TreeFrame,
    (updateChild a f l).map TreeFrame.address
      = if a ∈ l.map TreeFrame.address then l.map TreeFrame.address
        else l.map TreeFrame.address ++ [a] := by
  intro l
  induction l with
  | nil =>
    have h : (f (TreeFrame.new a)).address = a := by rw [hf]; rfl
    simp [updateChild, h]
  | cons c rest ih =>
    rw [updateChild]
    by_cases hc : c.address = a
    · rw [if_pos hc]
      simp [hf, hc]
    · rw [if_neg hc]
      have hca : ¬ a = c.address := fun h => hc h.symm
      simp only [List.map_cons, ih, List.mem_cons, hca, false_or]
      split_ifs <;> simp

/-- The children's addresses stay distinct under `updateChild`. -/
theorem nodup_address_updateChild (a : Nat) (f : TreeFrame → TreeFrame)
    (hf : ∀ x, (f x).address = x.address) (l : List TreeFrame)
    (h : (l.map TreeFrame.address).Nodup) :
    ((updateChild a f l).map TreeFrame.address).Nodup := by
  rw [map_address_updateChild a f hf]
  split_ifs with ha
  · exact h
  · rw [List.nodup_append]
    refine ⟨h, List.nodup_singleton a, ?_⟩
    intro x hx1 hx2
    have : x = a := by simpa using hx2
    exact ha (this ▸ hx1)

/-- The children after `updateChild` are old children, or the update of an old
child or of a fresh node. -/
theorem mem_updateChild (a : Nat) (f : TreeFrame → TreeFrame) (x : TreeFrame) :
    ∀ l : List TreeFrame, x ∈ updateChild a f l →
      x ∈ l ∨ ∃ c, (c ∈ l ∨ c = TreeFrame.new a) ∧ x = f c := by
  intro l
  induction l with
  | nil =>
    intro hx
    have : x = f (TreeFrame.new a) := by simpa [updateChild] using hx
    exact Or.inr ⟨_, Or.inr rfl, this⟩
  | cons c rest ih =>
    intro hx
    rw [updateChild] at hx
    by_cases hc : c.address = a
    · rw [if_pos hc] at hx
      rcases List.mem_cons.mp hx with h | h
      · exact Or.inr ⟨c, Or.inl (List.mem_cons_self _ _), h⟩
      · exact Or.inl (List.mem_cons_of_mem _ h)
    · rw [if_neg hc] at hx
      rcases List.mem_cons.mp hx with h | h
      · exact Or.inl (h ▸ List.mem_cons_self _ _)
      · rcases ih h with h2 | ⟨c2, hc2, hx2⟩
        · exact Or.inl (List.mem_cons_of_mem _ h2)
        · refine Or.inr ⟨c2, ?_, hx2⟩
          rcases hc2 with h3 | h3
          · exact Or.inl (List.mem_cons_of_mem _ h3)
          · exact Or.inr h3

/-- Inserting a sample keeps the children of every node distinct by address. -/
theorem insertSample_uniqueChildren : ∀ (s : List Nat) (t : TreeFrame),
    t.UniqueChildren → (insertSample s t).UniqueChildren := by
  intro s
  induction s with
  | nil => intro t ht; exact ht
  | cons a rest ih =>
    intro t ht n hn
    rw [TreeFrame.mem_nodes] at hn
    rcases hn with rfl | ⟨x, hx, hnx⟩
    · rw [insertSample_children_cons]
      exact nodup_address_updateChild a _ (insertSample_increment_address rest) _
        (ht t ((TreeFrame.mem_nodes _ _).mpr (Or.inl rfl)))
    · rw [insertSample_children_cons] at hx
      rcases mem_updateChild a _ x _ hx with h | ⟨c, hc, rfl⟩
      · exact ht n ((TreeFrame.mem_nodes _ _).mpr (Or.inr ⟨x, h, hnx⟩))
      · apply ih (c.increment 1) _ n hnx
        intro m hm
        rw [TreeFrame.mem_nodes, TreeFrame.increment_children] at hm
        rcases hc with hc | hc
        · have hcn : c ∈ TreeFrame.nodes t :=
            (TreeFrame.mem_nodes _ _).mpr
              (Or.inr ⟨c, hc, (TreeFrame.mem_nodes _ _).mpr (Or.inl rfl)⟩)
          rcases hm with rfl | ⟨y, hy, hmy⟩
          · rw [TreeFrame.increment_children]
            exact ht c hcn
          · exact ht m ((TreeFrame.mem_nodes _ _).mpr
              (Or.inr ⟨c, hc, (TreeFrame.mem_nodes _ _).mpr (Or.inr ⟨y, hy, hmy⟩)⟩))
        · subst hc
          rcases hm with rfl | ⟨y, hy, _⟩
          · exact List.nodup_nil
          · exact absurd hy (List.not_mem_nil _)

/-- The tree built from the samples has at most one child per address at every
node. -/
theorem Thread.buildTree_uniqueChildren (samples : List (List Nat)) :
    (Thread.buildTree samples).UniqueChildren := by
  induction samples using List.reverseRecOn with
  | nil =>
    intro n hn
    have : n = RootTreeFrame.new := by simpa [Thread.buildTree, RootTreeFrame.new,
      TreeFrame.new, TreeFrame.nodes, TreeFrame.nodesList] using hn
    subst this
    exact List.nodup_nil
  | append_singleton l s ih =>
    rw [Thread.buildTree_append]
    exact insertSample_uniqueChildren s _ ih

/-- With distinct addresses, looking up the address of a child finds that child. -/
theorem find?_address_of_mem (x : TreeFrame) : ∀ l : List TreeFrame,
    (l.map TreeFrame.address).Nodup → x ∈ l →
      l.find? (fun child => decide (child.address = x.address)) = some x := by
  intro l
  induction l with
  | nil => intro _ hx; exact absurd hx (List.not_mem_nil _)
  | cons c rest ih =>
    intro hnd hx
    rw [List.map_cons, List.nodup_cons] at hnd
    rcases List.mem_cons.mp hx with h | h
    · subst h
      simp [List.find?]
    · have hne : c.address ≠ x.address := by
        intro heq
        exact hnd.1 (heq ▸ List.mem_map_of_mem _ h)
      simp [List.find?, hne, ih hnd.2 h]

/-- With distinct addresses at every node, every node below the root is reached by
a non-empty path. -/
theorem TreeFrame.exists_path (t : TreeFrame) :
    t.UniqueChildren → ∀ n ∈ TreeFrame.nodesList t.children,
      ∃ p : List Nat, p ≠ [] ∧ t.find p = some n := by
  induction t using TreeFrame.induction_on with
  | h a c ch ih =>
    intro hu n hn
    obtain ⟨x, hx, hnx⟩ := (TreeFrame.mem_nodesList n ch).mp hn
    have hroot := hu _ ((TreeFrame.mem_nodes _ _).mpr (Or.inl rfl))
    have hfind := find?_address_of_mem x ch hroot hx
    have hux : x.UniqueChildren := fun m hm =>
      hu m ((TreeFrame.mem_nodes _ _).mpr (Or.inr ⟨x, hx, hm⟩))
    rw [TreeFrame.mem_nodes] at hnx
    rcases hnx with rfl | hbelow
    · refine ⟨[n.address], by simp, ?_⟩
      rw [TreeFrame.find_cons]
      simp only [TreeFrame.children, hfind, TreeFrame.find_nil]
    · obtain ⟨q, hq, hfq⟩ := ih x hx hux n ((TreeFrame.mem_nodesList n _).mpr hbelow)
      refine ⟨x.address :: q, by simp, ?_⟩
      rw [TreeFrame.find_cons]
      simp only [TreeFrame.children, hfind, hfq]

/-- The tree of `n + 1` samples that are all the single address `a`. -/
theorem Thread.buildTree_replicate (a : Nat) : ∀ n : Nat,
    Thread.buildTree (List.replicate (n + 1) [a])
      = TreeFrame.mk 0 0 [TreeFrame.mk a ((n + 1) % UINT) []] := by
  intro n
  induction n with
  | zero => rfl
  | succ n ih =>
    rw [List.replicate_succ', Thread.buildTree_append, ih]
    have hU : UINT = 4294967296 := by decide
    have hc : ((n + 1) % UINT + 1) % UINT = (n + 1 + 1) % UINT := by
      rw [hU]; omega
    simp [insertSample, updateChild, TreeFrame.address, TreeFrame.increment, hc]

/-- C3 (amended): count invariant.  For every list of fewer than `2 ^ 32` samples
inserted into an empty tree, the root keeps count 0, and every node below the root
has a count equal to the sum of its children's counts plus the number of samples
whose address sequence ends exactly at that node: this holds at every non-empty path
of addresses that leads to a node, and every node below the root is reached by such a
path. -/
theorem Thread.buildTree_count (samples : List (List Nat)) (hlen : samples.length < UINT) :
    (Thread.buildTree samples).count = 0
    ∧ (∀ (p : List Nat) (n : TreeFrame), p ≠ [] →
        (Thread.buildTree samples).find p = some n →
        n.count = (n.children.map TreeFrame.count).sum + samples.count p)
    ∧ (∀ n ∈ TreeFrame.nodesList (Thread.buildTree samples).children,
        ∃ p : List Nat, p ≠ [] ∧ (Thread.buildTree samples).find p = some n
          ∧ n.count = (n.children.map TreeFrame.count).sum + samples.count p) := by
  have hpath : ∀ (p : List Nat) (n : TreeFrame), p ≠ [] →
      (Thread.buildTree samples).find p = some n →
      n.count = (n.children.map TreeFrame.count).sum + samples.count p := by
    intro p n hp hfind
    obtain ⟨h1, h2⟩ := Thread.buildTree_count_mod samples p hp
    rw [hfind] at h1 h2
    have hoc : optCount (some n) = n.count := rfl
    have hoch : optChildren (some n) = n.children := rfl
    rw [hoc, hoch] at h1
    rw [hoch] at h2
    rw [h1]
    exact Nat.mod_eq_of_lt (by omega)
  refine ⟨(Thread.buildTree_root samples).1, hpath, ?_⟩
  intro n hn
  obtain ⟨p, hp, hfind⟩ :=
    TreeFrame.exists_path _ (Thread.buildTree_uniqueChildren samples) n hn
  exact ⟨p, hp, hfind, hpath p n hp hfind⟩

/-- Witness for `Thread.buildTree_count`: scenario S1 at the node `B` below `A`, whose
count 3 is the sum of the counts of `C` (2) and `D` (1); no sample ends at `B`. -/
theorem Thread.buildTree_count_witness :
    samplesS1.length < UINT
    ∧ (Thread.buildTree samplesS1).find [0xA, 0xB]
        = some (TreeFrame.mk 0xB 3 [TreeFrame.mk 0xC 2 [], TreeFrame.mk 0xD 1 []])
    ∧ (TreeFrame.mk 0xB 3 [TreeFrame.mk 0xC 2 [], TreeFrame.mk 0xD 1 []]).count
        = ((TreeFrame.mk 0xB 3 [TreeFrame.mk 0xC 2 [], TreeFrame.mk 0xD 1 []]).children.map
            TreeFrame.count).sum + samplesS1.count [0xA, 0xB] :=
  ⟨by decide, rfl,
   (Thread.buildTree_count samplesS1 (by decide)).2.1 [0xA, 0xB] _ (by simp) rfl⟩

/-- C3 (counterexample).  The claim fails as stated, in two ways.
(1) The root: after the single sample `[0xA]` the root has count 0, its only child has
count 1, and no sample ends at the root, so `0 ≠ 1 + 0`.
(2) Wrap-around of the 32-bit count: after `2 ^ 32` samples `[0xA]` the node `0xA` has
count 0 and no children, while `2 ^ 32` samples end there. -/
theorem Thread.buildTree_count_counterexample :
    ((Thread.buildTree [[0xA]]).count = 0
      ∧ ((Thread.buildTree [[0xA]]).children.map TreeFrame.count).sum = 1
      ∧ List.count [] [[0xA]] = 0
      ∧ (Thread.buildTree [[0xA]]).count
          ≠ ((Thread.buildTree [[0xA]]).children.map TreeFrame.count).sum
            + List.count [] [[0xA]])
    ∧ ((Thread.buildTree samplesWrap).find [0xA] = some (TreeFrame.mk 0xA 0 [])
      ∧ samplesWrap.count [0xA] = 2 ^ 32
      ∧ (TreeFrame.mk 0xA 0 []).count
          ≠ ((TreeFrame.mk 0xA 0 []).children.map TreeFrame.count).sum
            + samplesWrap.count [0xA]) := by
  have hcount : samplesWrap.count [0xA] = 2 ^ 32 := by
    rw [samplesWrap, List.count_replicate_self]
  have hfind : (Thread.buildTree samplesWrap).find [0xA] = some (TreeFrame.mk 0xA 0 []) := by
    have h := Thread.buildTree_replicate 0xA (2 ^ 32 - 1)
    have h1 : 2 ^ 32 - 1 + 1 = 2 ^ 32 := by norm_num
    have h2 : 2 ^ 32 % UINT = 0 := by norm_num [UINT]
    rw [h1, h2] at h
    rw [samplesWrap, h]
    rfl
  refine ⟨⟨rfl, rfl, rfl, by decide⟩, hfind, hcount, ?_⟩
  rw [hcount]
  show (0 : Nat) ≠ 0 + 2 ^ 32
  norm_num

/-! ### Call tree: one child per address after sorting -/

/-- Sorting keeps the children of every node distinct by address, whatever
`std::sort` does with equal elements. -/
theorem TreeFrame.sort_uniqueChildren (S : StdSort) (t : TreeFrame)
    (ht : t.UniqueChildren) : (t.sort S).UniqueChildren := by
  intro n hn
  obtain ⟨m, hm, rfl⟩ := TreeFrame.nodes_sort S t n hn
  rw [TreeFrame.children_sort, List.map_map, TreeFrame.address_comp_sort]
  exact (((S.perm m.children).map TreeFrame.address).nodup_iff).mpr (ht m hm)

/-- C11: unique child per address.  For every list of samples inserted into the empty
root and every admissible `std::sort`, in the tree before sorting and in the sorted
tree, no node has two children with the same address: the addresses of the children
of every node are pairwise distinct. -/
theorem Thread.sorted_tree_unique_children (S : StdSort) (samples : List (List Nat)) :
    (∀ n ∈ TreeFrame.nodes (Thread.buildTree samples),
      (n.children.map TreeFrame.address).Nodup)
    ∧ (∀ n ∈ TreeFrame.nodes ((Thread.buildTree samples).sort S),
      (n.children.map TreeFrame.address).Nodup)
    ∧ (∀ n ∈ TreeFrame.nodes ((Thread.buildTree samples).sort S),
      ∀ (i j : Nat) (hi : i < n.children.length) (hj : j < n.children.length), i ≠ j →
        n.children[i].address ≠ n.children[j].address) := by
  have hsorted := TreeFrame.sort_uniqueChildren S _ (Thread.buildTree_uniqueChildren samples)
  refine ⟨Thread.buildTree_uniqueChildren samples, hsorted, ?_⟩
  intro n hn i j hi hj hij heq
  have hnd := hsorted n hn
  have hi2 : i < (n.children.map TreeFrame.address).length := by simpa using hi
  have hj2 : j < (n.children.map TreeFrame.address).length := by simpa using hj
  have h := (@List.Nodup.getElem_inj_iff _ _ hnd i hi2 j hj2).mp (by simpa using heq)
  exact hij h

/-- Witness for `Thread.sorted_tree_unique_children`: in the sorted tree of scenario
S1 the node `A` has the children `B` and `E`. -/
theorem Thread.sorted_tree_unique_children_witness :
    TreeFrame.mk 0xA 4 [TreeFrame.mk 0xB 3 [TreeFrame.mk 0xC 2 [], TreeFrame.mk 0xD 1 []],
        TreeFrame.mk 0xE 1 []]
      ∈ TreeFrame.nodes ((Thread.buildTree samplesS1).sort stableSort)
    ∧ ((TreeFrame.mk 0xA 4 [TreeFrame.mk 0xB 3 [TreeFrame.mk 0xC 2 [], TreeFrame.mk 0xD 1 []],
        TreeFrame.mk 0xE 1 []]).children.map TreeFrame.address).Nodup :=
  have hmem : TreeFrame.mk 0xA 4
      [TreeFrame.mk 0xB 3 [TreeFrame.mk 0xC 2 [], TreeFrame.mk 0xD 1 []], TreeFrame.mk 0xE 1 []]
      ∈ TreeFrame.nodes ((Thread.buildTree samplesS1).sort stableSort) := by
    rw [Thread.sort_samplesS1, Thread.buildTree_samplesS1]
    simp [TreeFrame.nodes, TreeFrame.nodesList]
  ⟨hmem, (Thread.sorted_tree_unique_children stableSort samplesS1).2.1 _ hmem⟩

/-! ### Auxiliary vector -/

/-- The last value of a tag after one more entry. -/
theorem lastAuxvValue_append (tag : Int) (l : List Elf_Auxinfo) (e : Elf_Auxinfo) :
    lastAuxvValue tag (l ++ [e])
      = if e.a_type = tag then e.a_val % WORD else lastAuxvValue tag l := by
  unfold lastAuxvValue
  rw [List.filter_append]
  by_cases h : e.a_type = tag
  · rw [if_pos h]
    have hf : List.filter (fun entry => decide (entry.a_type = tag)) [e] = [e] := by
      simp [List.filter_cons, h]
    rw [hf, List.getLast?_concat]
    rfl
  · rw [if_neg h]
    have hf : List.filter (fun entry => decide (entry.a_type = tag)) [e] = [] := by
      simp [List.filter_cons, h]
    rw [hf, List.append_nil]

/-- The scan of `get_phdr_array` ends with the values of the last `AT_PHDR` and the
last `AT_PHNUM` entry, each 0 when there is no such entry. -/
theorem foldl_auxvStep (auxv : List Elf_Auxinfo) :
    auxv.foldl auxvStep (0, 0) = (lastAuxvValue AT_PHDR auxv, lastAuxvValue AT_PHNUM auxv) := by
  induction auxv using List.reverseRecOn with
  | nil => rfl
  | append_singleton l e ih =>
    rw [List.foldl_append, ih, lastAuxvValue_append, lastAuxvValue_append]
    simp only [List.foldl_cons, List.foldl_nil, auxvStep]
    by_cases h1 : e.a_type = AT_PHDR
    · have h2 : ¬ e.a_type = AT_PHNUM := by rw [h1]; decide
      rw [if_pos h1, if_pos h1, if_neg h2]
    · rw [if_neg h1, if_neg h1]
      by_cases h2 : e.a_type = AT_PHNUM
      · rw [if_pos h2, if_pos h2]
      · rw [if_neg h2, if_neg h2]

/-- C12 (the code at the failing input).  Whenever the `sysctl` succeeds,
`get_phdr_array` returns an array and does not abort: its base address is the value
of the last `AT_PHDR` entry and its count the value of the last `AT_PHNUM` entry, each
0 when the entry is missing.  For the auxiliary vector `auxvNoPhdr`, which has neither
entry, it returns `RemoteArray(pid, 0, 0)`; the abort comes only from
`get_dynamic_phdr`, which finds no `PT_DYNAMIC` in the empty array.  For
`auxvOnlyPhnum`, which has no `AT_PHDR` entry, `get_dynamic_phdr` reads the target at
address 0 and returns what it finds there. -/
theorem get_phdr_array_missing_entries :
    (∀ (pid : Nat) (auxv : List Elf_Auxinfo),
      get_phdr_array (fun _ => some auxv) pid
        = some ⟨pid, lastAuxvValue AT_PHDR auxv, lastAuxvValue AT_PHNUM auxv⟩)
    ∧ get_phdr_array (fun _ => some auxvNoPhdr) 1234 = some ⟨1234, 0, 0⟩
    ∧ (∀ read : Nat → Nat → Option Elf_Phdr,
        get_dynamic_phdr (fun _ => some auxvNoPhdr) read 1234 = none)
    ∧ get_phdr_array (fun _ => some auxvOnlyPhnum) 1234 = some ⟨1234, 0, 1⟩
    ∧ get_dynamic_phdr (fun _ => some auxvOnlyPhnum) readZeroPage 1234
        = some ⟨2, 0x3000, 0x100⟩ := by
  refine ⟨?_, by decide, ?_, by decide, by decide⟩
  · intro pid auxv
    simp only [get_phdr_array, foldl_auxvStep]
  · intro read
    rfl

/-! ### Libraries without symbols -/

/-- A library with an empty symbol list answers every query with
`"??? (in <libname>)"`. -/
theorem Library.symbolicate_no_symbols (l : Library) (h : l.symbols = []) (u : Nat) :
    l.symbolicate u = "??? (in " ++ l.name ++ ")" := by
  have hstr : "???" ++ " (in " = "??? (in " := by decide
  unfold Library.symbolicate
  rw [h]
  simp only [upper_bound, List.length_nil, upperBoundLoop, ne_eq, not_true_eq_false,
    if_false, hstr]

/-- The constructor of `Library` for the path `"[vdso]"` returns before anything is
read: no symbols, and `_base_address` keeps its indeterminate content. -/
theorem Library.new_vdso (S : StdSortOf Symbol symbolLess)
    (open_file : String → Option MappedFile) (uninit load_address : Nat) :
    Library.new S open_file uninit "[vdso]" load_address
      = some ⟨"[vdso]", load_address, uninit, []⟩ := by
  simp [Library.new]

/-- C13: symbol-less library lookup.  The constructor of `Library` for the path
`"[vdso]"` leaves an empty symbol list and never assigns `_base_address` (it keeps its
indeterminate content `uninit`).  For the libraries held by a `FreeBSDSymbolicator`
(the sorted result of `read_libraries`), every library in them with an empty symbol
list, whatever its base address, and every non-zero address `a` for which it is the
last library with `load_address ≤ a`: `symbolicate(a)` is exactly
`"??? (in <libname>)"`, the same for every other value of the base address, and
`"??? (in [vdso])"` when the path is `"[vdso]"`. -/
theorem symbolicate_symbolless_library (S : StdSortOf Library libraryLess)
    (raw pre post : List Library) (path : String) (load base a : Nat)
    (hsplit : FreeBSDSymbolicator.new S raw = pre ++ ⟨path, load, base, []⟩ :: post)
    (ha : a ≠ 0) (hle : load ≤ a) (hlast : ∀ M ∈ post, a < M.load_address) :
    (∀ (Ssym : StdSortOf Symbol symbolLess) (open_file : String → Option MappedFile)
        (uninit load0 : Nat),
        Library.new Ssym open_file uninit "[vdso]" load0 = some ⟨"[vdso]", load0, uninit, []⟩)
    ∧ FreeBSDSymbolicator.symbolicate (FreeBSDSymbolicator.new S raw) a
        = "??? (in " ++ basename path ++ ")"
    ∧ (∀ base0 : Nat,
        FreeBSDSymbolicator.symbolicate (pre ++ ⟨path, load, base0, []⟩ :: post) a
          = "??? (in " ++ basename path ++ ")")
    ∧ (path = "[vdso]" →
        FreeBSDSymbolicator.symbolicate (FreeBSDSymbolicator.new S raw) a = "??? (in [vdso])") := by
  have hsorted : (pre ++ (⟨path, load, base, []⟩ : Library) :: post).Pairwise
      (fun x y => libraryLess y x = false) := by
    rw [← hsplit]
    exact S.sorted raw
  have hpre : ∀ M ∈ pre, M.load_address ≤ a := by
    intro M hM
    have h := (List.pairwise_append.mp hsorted).2.2 M hM _ (List.mem_cons_self _ _)
    have h2 : M.load_address ≤ load := by simpa [libraryLess] using h
    exact Nat.le_trans h2 hle
  have hany : ∀ base0 : Nat,
      FreeBSDSymbolicator.symbolicate (pre ++ ⟨path, load, base0, []⟩ :: post) a
        = "??? (in " ++ basename path ++ ")" := by
    intro base0
    rw [FreeBSDSymbolicator.symbolicate_at_last_library _ pre post ⟨path, load, base0, []⟩ a rfl
      ha hpre hle hlast, Library.symbolicate_no_symbols _ rfl]
    rfl
  have hthis : FreeBSDSymbolicator.symbolicate (FreeBSDSymbolicator.new S raw) a
      = "??? (in " ++ basename path ++ ")" := by
    rw [hsplit]
    exact hany base
  refine ⟨fun Ssym open_file uninit load0 => Library.new_vdso Ssym open_file uninit load0,
    hthis, hany, ?_⟩
  intro hp
  rw [hthis, hp]
  decide

/-- Witness for `symbolicate_symbolless_library`: the vDSO loaded above `libL1`, with
the base address `0xdeadbeef`; the symbolicator sorts `[libVdso, libL1]` into
`[libL1, libVdso]` and answers `"??? (in [vdso])"` for an address inside the vDSO. -/
theorem symbolicate_symbolless_library_witness :
    FreeBSDSymbolicator.new librarySort [libVdso, libL1] = [libL1, libVdso]
    ∧ FreeBSDSymbolicator.symbolicate (FreeBSDSymbolicator.new librarySort [libVdso, libL1])
        0x7ffff7fc1234 = "??? (in [vdso])"
    ∧ (∀ base0 : Nat,
        FreeBSDSymbolicator.symbolicate
            ([libL1] ++ ⟨"[vdso]", 0x7ffff7fc1000, base0, []⟩ :: []) 0x7ffff7fc1234
          = "??? (in " ++ basename "[vdso]" ++ ")") :=
  have h := symbolicate_symbolless_library librarySort [libVdso, libL1] [libL1] [] "[vdso]"
    0x7ffff7fc1000 0xdeadbeef 0x7ffff7fc1234 (by decide) (by decide) (by decide) (by simp)
  ⟨by decide, h.2.2.2 rfl, h.2.2.1⟩

end Drspin
